import Mathlib

/-!
# A verification model of resurrect.js

This file gives a shallow embedding of the core of `resurrect.js`, a
graph-preserving object serializer, and proves properties about it.

Modelling conventions:
* JavaScript numbers are modelled with an `Int` payload for finite values plus
  the three non-finite values NaN, Infinity and -Infinity; the claims under
  study never depend on fractional values.
* A date value is keyed by its canonical ISO string (`toISOString`), so
  "equal instant" is string equality on that key.
* The mutable object graph is an explicit heap: a list of heap objects,
  addresses being list indices.  JavaScript objects are association lists of
  fields in insertion order; arrays carry an element list plus a separate
  association list for non-index properties (`for (i = 0; i < length; i++)`
  only sees the elements, while `JSON.stringify` drops non-index properties
  of an array).
* `JSON.stringify ∘ JSON.parse` on the produced wire string is modelled as the
  identity on wire trees; the one observable effect of the text codec, the
  coercion of non-finite numbers to `null`, is applied when a value is put on
  the wire (`jsonOfAtom`).
* The recursion of `Resurrect.prototype.visit` is modelled with explicit fuel;
  `stringify` supplies fuel `countUntagged h + 1`, and the termination theorem
  below shows this can never run out, so the model is total exactly where the
  JavaScript terminates.
-/

set_option autoImplicit false

namespace RJS

/-- JavaScript numbers: a finite payload or one of the non-finite values. -/
inductive JSNum where
  | fin (v : Int)
  | nan
  | inf
  | ninf
deriving DecidableEq, Repr

/-- Atomic JavaScript values, as classified by `Resurrect.isAtom`:
null, undefined, booleans, numbers, strings, functions and Date objects. -/
inductive JSAtom where
  | null
  | undef
  | bool (b : Bool)
  | num (n : JSNum)
  | str (s : String)
  | date (iso : String)
  | fn
deriving DecidableEq, Repr

/-- A prototype object, identified by `pid`.  `ctorName` is the value of
`constructor.name` observed through this prototype, and `pfields` are the
enumerable properties found on the prototype chain (methods and the like). -/
structure Proto where
  pid : Nat
  ctorName : String
  pfields : List (String × JSAtom)
deriving DecidableEq, Repr

/-- `Object.prototype`: the prototype of a plain object literal. -/
def objectProto : Proto := ⟨0, "Object", []⟩

/-- `Date.prototype`. -/
def dateProto : Proto := ⟨1, "Date", []⟩

/-- A value stored in a field or array slot: an atom or a reference to a
heap address. -/
inductive HVal where
  | atomv (a : JSAtom)
  | ref (n : Nat)
deriving DecidableEq, Repr

/-- A composite heap object: an array (element list plus non-index
properties) or an object (fields in insertion order plus a prototype). -/
inductive HObj where
  | arr (elems : List HVal) (props : List (String × HVal))
  | obj (fields : List (String × HVal)) (proto : Proto)
deriving DecidableEq, Repr

/-- The heap: addresses are indices into the list. -/
abbrev Heap := List HObj

/-! ## Association-list primitives

JavaScript property access, assignment and deletion on ordinary objects,
preserving insertion order the way object key enumeration does. -/

/-- Property read: first entry with the given key. -/
def lookupF {α : Type} : List (String × α) → String → Option α
  | [], _ => none
  | (k', v) :: t, k => if k' = k then some v else lookupF t k

/-- Property write: overwrite in place, or append a fresh key at the end. -/
def setF {α : Type} : List (String × α) → String → α → List (String × α)
  | [], k, v => [(k, v)]
  | (k', v') :: t, k, v => if k' = k then (k, v) :: t else (k', v') :: setF t k v

/-- Property deletion (first occurrence of the key). -/
def delF {α : Type} : List (String × α) → String → List (String × α)
  | [], _ => []
  | (k', v') :: t, k => if k' = k then t else (k', v') :: delF t k

@[simp] theorem lookupF_nil {α : Type} (k : String) : lookupF ([] : List (String × α)) k = none := rfl

theorem lookupF_cons {α : Type} (k' : String) (v : α) (t : List (String × α)) (k : String) :
    lookupF ((k', v) :: t) k = if k' = k then some v else lookupF t k := rfl

theorem lookupF_setF_self {α : Type} (l : List (String × α)) (k : String) (v : α) :
    lookupF (setF l k v) k = some v := by
  induction l with
  | nil => simp [setF, lookupF]
  | cons hd t ih =>
      obtain ⟨k', v'⟩ := hd
      by_cases h : k' = k
      · simp [setF, lookupF, h]
      · simp [setF, lookupF, h, ih]

theorem lookupF_setF_ne {α : Type} (l : List (String × α)) (k k' : String) (v : α)
    (h : k ≠ k') : lookupF (setF l k v) k' = lookupF l k' := by
  induction l with
  | nil => simp [setF, lookupF, h]
  | cons hd t ih =>
      obtain ⟨k'', v''⟩ := hd
      by_cases h2 : k'' = k
      · subst h2
        simp [setF, lookupF, h]
      · simp [setF, lookupF, h2, ih]

/-- Writing a key that is absent appends it at the end of the list. -/
theorem setF_eq_append {α : Type} (l : List (String × α)) (k : String) (v : α)
    (h : lookupF l k = none) : setF l k v = l ++ [(k, v)] := by
  induction l with
  | nil => simp [setF]
  | cons hd t ih =>
      obtain ⟨k', v'⟩ := hd
      by_cases h2 : k' = k
      · simp [lookupF, h2] at h
      · simp [lookupF, h2] at h
        simp [setF, h2, ih h]

theorem lookupF_append_right {α : Type} (l l' : List (String × α)) (k : String)
    (h : lookupF l k = none) : lookupF (l ++ l') k = lookupF l' k := by
  induction l with
  | nil => simp
  | cons hd t ih =>
      obtain ⟨k', v'⟩ := hd
      by_cases h2 : k' = k
      · simp [lookupF, h2] at h
      · simp [lookupF, h2] at h ⊢
        exact ih h

theorem delF_of_lookupF_none {α : Type} (l : List (String × α)) (k : String)
    (h : lookupF l k = none) : delF l k = l := by
  induction l with
  | nil => rfl
  | cons hd t ih =>
      obtain ⟨k', v'⟩ := hd
      by_cases h2 : k' = k
      · simp [lookupF, h2] at h
      · simp [lookupF, h2] at h
        simp [delF, h2, ih h]

/-- Deleting a key just appended to a list not containing it restores the list. -/
theorem delF_append_singleton {α : Type} (l : List (String × α)) (k : String) (v : α)
    (h : lookupF l k = none) : delF (l ++ [(k, v)]) k = l := by
  induction l with
  | nil => simp [delF]
  | cons hd t ih =>
      obtain ⟨k', v'⟩ := hd
      by_cases h2 : k' = k
      · simp [lookupF, h2] at h
      · simp [lookupF, h2] at h
        simp [delF, h2, ih h]

/-! ## Configuration and the global namespace -/

/-- The options consumed by the `Resurrect` constructor: the marker string
(`this.prefix`, default `"#"`), the `cleanup` flag and the `revive` flag. -/
structure Config where
  pfx : String
  cleanup : Bool
  revive : Bool
deriving DecidableEq, Repr

def Config.default : Config := ⟨"#", false, true⟩

/-- `this.refcode = this.prefix + 'id'`. -/
def Config.refcode (c : Config) : String := c.pfx ++ "id"

/-- `this.origcode = this.prefix + 'original'`. -/
def Config.origcode (c : Config) : String := c.pfx ++ "original"

/-- `this.buildcode = this.prefix + '.'`. -/
def Config.buildcode (c : Config) : String := c.pfx ++ "."

/-- `this.valuecode = this.prefix + 'v'`. -/
def Config.valuecode (c : Config) : String := c.pfx ++ "v"

/-- An entry of the global object: the built-in `Date` constructor, or a user
constructor carrying its `.prototype`.  Constructor function bodies are
external to this repository; `new` on a user constructor is modelled opaquely
(see `build`). -/
inductive WindowEntry where
  | dateCtor
  | protoCtor (p : Proto)
deriving DecidableEq, Repr

/-- The `.prototype` property of a global constructor. -/
def WindowEntry.protoOf : WindowEntry → Proto
  | .dateCtor => dateProto
  | .protoCtor p => p

/-- The global object `window`, as a name-to-constructor table. -/
abbrev Window := List (String × WindowEntry)

def windowLookup (w : Window) (name : String) : Option WindowEntry := lookupF w name

/-! ## Errors -/

/-- Outcomes of a failed call.  `resurrectErr` is a `ResurrectError` thrown by
the library itself; `nativeTypeErr` is an uncontrolled native `TypeError`
(for example `new undefined(...)`); `outOfFuel` is an artefact of the fuelled
model and, by the termination theorem below, never escapes `stringify`. -/
inductive Err where
  | outOfFuel
  | resurrectErr (msg : String)
  | nativeTypeErr
deriving DecidableEq, Repr

/-- Whether an error is an instance of the library error type
`Resurrect.prototype.Error`. -/
def Err.isLibraryError : Err → Bool
  | .resurrectErr _ => true
  | _ => false

/-! ## Encoding values

The values stored in the fresh copies built by `visit`: a passthrough atom, a
reference encoding (the object with the single key `this.prefix`), or a
builder encoding (the object with keys `this.buildcode`, `this.valuecode`). -/

inductive Enc where
  | atom (a : JSAtom)
  | eref (a : JSAtom)
  | builder (name : String) (value : String)
deriving DecidableEq, Repr

/-- `Resurrect.prototype.handleAtom`: functions are rejected, a Date becomes
a builder encoding carrying its ISO string, `undefined` becomes a reference
encoding to slot -1 (`this.ref(undefined)`), and everything else passes
through. -/
def handleAtom : JSAtom → Except Err Enc
  | .fn => .error (.resurrectErr "Can\x27t serialize functions.")
  | .date iso => .ok (.builder "Date" iso)
  | .undef => .ok (.eref (.num (.fin (-1))))
  | a => .ok (.atom a)

/-! ## Identity tags on heap objects -/

/-- Read the identity tag (`object[this.refcode]`) of a heap object.  On an
object it lives among the ordinary fields; on an array it is a non-index
property. -/
def HObj.getTag (cfg : Config) : HObj → Option HVal
  | .arr _ props => lookupF props cfg.refcode
  | .obj fields _ => lookupF fields cfg.refcode

/-- Write the identity tag. -/
def HObj.setTag (cfg : Config) (v : HVal) : HObj → HObj
  | .arr es props => .arr es (setF props cfg.refcode v)
  | .obj fields p => .obj (setF fields cfg.refcode v) p

/-- Remove the identity tag (the `delete` operator). -/
def HObj.delTag (cfg : Config) : HObj → HObj
  | .arr es props => .arr es (delF props cfg.refcode)
  | .obj fields p => .obj (delF fields cfg.refcode) p

/-- `Resurrect.prototype.isTagged`: the refcode property exists and is
`!= null` (loose inequality, so both `null` and `undefined` fail it). -/
def HObj.isTagged (cfg : Config) (o : HObj) : Bool :=
  match o.getTag cfg with
  | some (.atomv .null) => false
  | some (.atomv .undef) => false
  | some _ => true
  | none => false

/-- `Resurrect.prototype.ref` applied to an already-tagged original: the
reference encoding carrying the object's current tag value.  An identity tag
is only ever an atom in any run starting from an untagged heap; a
reference-valued tag could only come from caller-corrupted input and is
outside the modelled scope. -/
def refOfTagged (cfg : Config) (o : HObj) : Enc :=
  match o.getTag cfg with
  | some (.atomv a) => .eref a
  | _ => .eref (.undef)

/-- Number of heap objects not yet tagged; used as the fuel bound. -/
def countUntagged (cfg : Config) : Heap → Nat
  | [] => 0
  | o :: t => (if o.isTagged cfg then 0 else 1) + countUntagged cfg t

/-! ## The copies and the reference table -/

/-- A fresh copy built by `visit`, one per table slot.  `tag` is the type-tag
property `copy[this.prefix]` written by `tag()`; `orig` is the backpointer
`copy[this.origcode]`, modelled as the original's address.  For an object
copy, `fields` also receives the original's `refcode` entry (the `for..in`
loop copies it), which the finalization step later deletes.  The slot's own
`copy[this.refcode]` property is not represented: it is deleted before
serialization and, on arrays, invisible to `JSON.stringify` anyway. -/
structure Copy where
  isArr : Bool
  elems : List Enc
  fields : List (String × Enc)
  tag : Option String
  orig : Nat
deriving DecidableEq, Repr

/-- Encoder state: the caller's heap (mutated by tagging) and the reference
table of copies. -/
structure EncSt where
  heap : Heap
  table : List Copy
deriving Repr

/-- The constructor-name check in `Resurrect.prototype.tag`, applied to a
fresh copy.  A copy of an array is a plain array, whose constructor is the
built-in `Array`; in a browser `window.Array.prototype` is the genuine array
prototype, so the check passes and the copy is tagged `"Array"`.  For an
object copy the prototype is the original's (`Object.create(getPrototypeOf
(root))`).  An empty constructor name throws; the name `"Object"` skips the
check and leaves the copy untagged; otherwise `window[name].prototype` must
be identical to the copy's prototype, a failed global lookup giving the
native `TypeError` of reading `.prototype` of `undefined`. -/
def tagCheck (w : Window) (cfg : Config) (isArr : Bool) (proto : Proto) :
    Except Err (Option String) :=
  if cfg.revive then
    if isArr then .ok (some "Array")
    else if proto.ctorName = "" then
      .error (.resurrectErr "Can\x27t serialize objects with anonymous constructors.")
    else if proto.ctorName = "Object" then .ok none
    else
      match windowLookup w proto.ctorName with
      | none => .error .nativeTypeErr
      | some e =>
          if e.protoOf = proto then .ok (some proto.ctorName)
          else .error (.resurrectErr "Constructor mismatch!")
  else .ok none

/-! ## The graph visitor -/

/-- The `for (var i = 0; i < root.length; i++)` loop over array elements,
with `f` the visitor applied to each child. -/
def visitElemsF (f : EncSt → HVal → Except Err (Enc × EncSt)) :
    EncSt → List HVal → Except Err (List Enc × EncSt)
  | st, [] => .ok ([], st)
  | st, v :: rest =>
      match f st v with
      | .error e => .error e
      | .ok (e, st1) =>
          match visitElemsF f st1 rest with
          | .error e => .error e
          | .ok (es, st2) => .ok (e :: es, st2)

/-- The `for (var key in root) if (root.hasOwnProperty(key))` loop: own
enumerable fields in insertion order.  Prototype-chain properties appear in
a raw `for..in` but are filtered out by the `hasOwnProperty` guard, so only
the own field list is walked. -/
def visitFieldsF (f : EncSt → HVal → Except Err (Enc × EncSt)) :
    EncSt → List (String × HVal) → Except Err (List (String × Enc) × EncSt)
  | st, [] => .ok ([], st)
  | st, (k, v) :: rest =>
      match f st v with
      | .error e => .error e
      | .ok (e, st1) =>
          match visitFieldsF f st1 rest with
          | .error e => .error e
          | .ok (fs, st2) => .ok ((k, e) :: fs, st2)

/-- The state right after `tag()` returns on a fresh array composite at
address `n`: the original gets its identity tag, a placeholder for the copy
enters the table. -/
def tagStArr (cfg : Config) (st : EncSt) (n : Nat) (elems : List HVal)
    (props : List (String × HVal)) (tg : Option String) : EncSt :=
  ⟨st.heap.set n (HObj.arr elems
      (setF props cfg.refcode (.atomv (.num (.fin (st.table.length : Int)))))),
   st.table ++ [⟨true, [], [], tg, n⟩]⟩

/-- Likewise for an object composite. -/
def tagStObj (cfg : Config) (st : EncSt) (n : Nat) (fields : List (String × HVal))
    (proto : Proto) (tg : Option String) : EncSt :=
  ⟨st.heap.set n (HObj.obj
      (setF fields cfg.refcode (.atomv (.num (.fin (st.table.length : Int))))) proto),
   st.table ++ [⟨false, [], [], tg, n⟩]⟩

/-- The composite cases of `Resurrect.prototype.visit` at address `n`, with
`f` the visitor applied to children.  A tagged composite returns its existing
reference encoding without re-descending.  An untagged composite is tagged
with the next table index before its children are visited: the model pushes a
placeholder slot at tag time (the JavaScript pushes the copy object itself
and mutates it) and writes the finished copy into that slot afterwards, which
is observationally the same because nothing reads table slots during the
walk. -/
def visitStep (w : Window) (cfg : Config)
    (f : EncSt → HVal → Except Err (Enc × EncSt)) (st : EncSt) (n : Nat) :
    Except Err (Enc × EncSt) :=
  match st.heap[n]? with
  | none => .error .nativeTypeErr
  | some o =>
    if o.isTagged cfg then
      .ok (refOfTagged cfg o, st)
    else
      match o with
      | .arr elems props =>
          match tagCheck w cfg true objectProto with
          | .error e => .error e
          | .ok tg =>
              match visitElemsF f (tagStArr cfg st n elems props tg) elems with
              | .error e => .error e
              | .ok (es, st2) =>
                  .ok (.eref (.num (.fin (st.table.length : Int))),
                       ⟨st2.heap, st2.table.set st.table.length ⟨true, es, [], tg, n⟩⟩)
      | .obj fields proto =>
          match tagCheck w cfg false proto with
          | .error e => .error e
          | .ok tg =>
              match visitFieldsF f (tagStObj cfg st n fields proto tg)
                  (setF fields cfg.refcode (.atomv (.num (.fin (st.table.length : Int))))) with
              | .error e => .error e
              | .ok (fs, st2) =>
                  .ok (.eref (.num (.fin (st.table.length : Int))),
                       ⟨st2.heap, st2.table.set st.table.length ⟨false, [], fs, tg, n⟩⟩)

/-- `Resurrect.prototype.visit`.  Atoms go through `f = handleAtom`
regardless of fuel; fuel is spent on each descent into an untagged
composite, and `stringify` supplies enough of it (see the termination
theorem below).  Defined by primitive recursion on fuel so that the model
computes by definitional unfolding. -/
def visit (w : Window) (cfg : Config) (fuel : Nat) : EncSt → HVal → Except Err (Enc × EncSt) :=
  Nat.rec
    (fun st v =>
      match v with
      | .atomv a =>
          match handleAtom a with
          | .error e => .error e
          | .ok enc => .ok (enc, st)
      | .ref _ => .error .outOfFuel)
    (fun _ ih st v =>
      match v with
      | .atomv a =>
          match handleAtom a with
          | .error e => .error e
          | .ok enc => .ok (enc, st)
      | .ref n => visitStep w cfg ih st n)
    fuel

theorem visit_atom (w : Window) (cfg : Config) (fuel : Nat) (st : EncSt) (a : JSAtom) :
    visit w cfg fuel st (.atomv a) =
      match handleAtom a with
      | .error e => .error e
      | .ok enc => .ok (enc, st) := by
  cases fuel <;> rfl

theorem visit_zero_ref (w : Window) (cfg : Config) (st : EncSt) (n : Nat) :
    visit w cfg 0 st (.ref n) = .error .outOfFuel := rfl

theorem visit_succ_ref (w : Window) (cfg : Config) (fuel : Nat) (st : EncSt) (n : Nat) :
    visit w cfg (fuel + 1) st (.ref n) = visitStep w cfg (visit w cfg fuel) st n := rfl

/-! ## The wire format

What `JSON.parse(JSON.stringify(...))` leaves of the table: a JSON tree.
JSON has no non-finite numbers; `JSON.stringify` writes them as `null`. -/

inductive JVal where
  | jnull
  | jbool (b : Bool)
  | jnum (v : Int)
  | jstr (s : String)
  | jarr (elems : List JVal)
  | jobj (fields : List (String × JVal))

/-- `JSON.stringify` on an atomic value.  NaN and the infinities are coerced
to `null`.  The `undef`, `date` and `fn` cases never reach the wire: every
copy field and every root atom goes through `handleAtom` first, which turns
them into encodings or fails. -/
def jsonOfAtom : JSAtom → JVal
  | .null => .jnull
  | .undef => .jnull
  | .bool b => .jbool b
  | .num (.fin v) => .jnum v
  | .num _ => .jnull
  | .str s => .jstr s
  | .date iso => .jstr iso
  | .fn => .jnull

/-- `JSON.stringify` on an encoding value stored in a copy. -/
def jsonOfEnc (cfg : Config) : Enc → JVal
  | .atom a => jsonOfAtom a
  | .eref a => .jobj [(cfg.pfx, jsonOfAtom a)]
  | .builder n v => .jobj [(cfg.buildcode, .jstr n), (cfg.valuecode, .jstr v)]

/-- `JSON.stringify` on one finished table slot.  A non-index property of an
array copy (its type tag `"Array"`) does not appear in JSON output; an object
copy serializes its type-tag property first (it was the first one assigned by
`tag()`), then its copied fields in insertion order. -/
def jsonOfCopy (cfg : Config) (c : Copy) : JVal :=
  if c.isArr then .jarr (c.elems.map (jsonOfEnc cfg))
  else .jobj ((match c.tag with
               | some t => [(cfg.pfx, JVal.jstr t)]
               | none => []) ++
              c.fields.map (fun kv => (kv.1, jsonOfEnc cfg kv.2)))

/-! ## Finalization and stringify -/

/-- The per-slot treatment of the original in the finalization loop of
`stringify`: `delete table[i][origcode][refcode]` in cleanup mode, or
`table[i][origcode][refcode] = null` in default mode. -/
def cleanOrig (cfg : Config) (h : Heap) (n : Nat) : Heap :=
  match h[n]? with
  | none => h
  | some o =>
      if cfg.cleanup then h.set n (o.delTag cfg)
      else h.set n (o.setTag cfg (.atomv .null))

/-- The per-slot treatment of the copy: `delete table[i][refcode]` and
`delete table[i][origcode]` remove the copied refcode entry and any copied
`origcode`-named entry (the backpointer itself, reassigned onto that entry,
is carried as `Copy.orig` and never serialized). -/
def cleanCopy (cfg : Config) (c : Copy) : Copy :=
  { c with fields := delF (delF c.fields cfg.refcode) cfg.origcode }

/-- `Resurrect.prototype.stringify`.  An atomic root is handled directly; a
composite root is visited (building the table), the bookkeeping fields are
stripped, and the table is serialized.  The function returns the wire tree
together with the caller's heap as left after finalization. -/
def stringify (w : Window) (cfg : Config) (h : Heap) (root : HVal) :
    Except Err (JVal × Heap) :=
  match root with
  | .atomv a =>
      match handleAtom a with
      | .error e => .error e
      | .ok enc => .ok (jsonOfEnc cfg enc, h)
  | .ref n =>
      match visit w cfg (countUntagged cfg h + 1) ⟨h, []⟩ (.ref n) with
      | .error e => .error e
      | .ok (_, st) =>
          .ok (.jarr (st.table.map (fun c => jsonOfCopy cfg (cleanCopy cfg c))),
               st.table.foldl (fun hh c => cleanOrig cfg hh c.orig) st.heap)

/-! ## The decoder -/

/-- A decoded value: an atom, a reference to a slot of the rebuilt table, or
a fresh instance made by `new` on a user constructor in `build` (whose body
is external to this repository and therefore opaque here). -/
inductive DVal where
  | datom (a : JSAtom)
  | dref (n : Nat)
  | dnew (p : Proto)
deriving DecidableEq, Repr

/-- A slot of the rebuilt table after the decode pass: an array, an object
with its (possibly reattached) prototype, or a primitive (which `stringify`
never emits as a slot but a hand-crafted wire could contain). -/
inductive DObj where
  | darr (elems : List DVal)
  | dobj (fields : List (String × DVal)) (proto : Proto)
  | dprim (j : JVal)

/-- `Resurrect.prototype.build`: `new window[ref[buildcode]](ref[valuecode])`.
An unknown name makes `window[name]` `undefined` and `new undefined(...)`
throws a native `TypeError`, not a `ResurrectError`.  `new Date(s)` on a
string produced by `toISOString` reproduces the same instant, so the model
returns a date keyed by that string (non-string payloads are never produced
by this encoder). -/
def build (w : Window) (cfg : Config) (fields : List (String × JVal)) :
    Except Err DVal :=
  match lookupF fields cfg.buildcode with
  | some (.jstr name) =>
      match windowLookup w name with
      | some .dateCtor =>
          match lookupF fields cfg.valuecode with
          | some (.jstr s) => .ok (.datom (.date s))
          | _ => .ok (.datom (.date ""))
      | some (.protoCtor p) => .ok (.dnew p)
      | none => .error .nativeTypeErr
  | _ => .error .nativeTypeErr

/-- `Resurrect.prototype.decode` on a parsed JSON object (`deref` or `build`
or the `Unknown encoding` error).  `deref` indexes the table with the value
under the marker key: a slot index within range resolves to that slot and
anything else (including the `-1` sentinel for `undefined`) indexes off the
table and yields `undefined`. -/
def decodeEnc (w : Window) (cfg : Config) (len : Nat)
    (fields : List (String × JVal)) : Except Err DVal :=
  match lookupF fields cfg.pfx with
  | some (.jnum t) => if 0 ≤ t ∧ t < (len : Int) then .ok (.dref t.toNat)
                      else .ok (.datom .undef)
  | some _ => .ok (.datom .undef)
  | none =>
      match lookupF fields cfg.buildcode with
      | some _ => build w cfg fields
      | none => .error (.resurrectErr "Unknown encoding.")

/-- One field of a slot in the decode loop: atoms stay as parsed
(`isAtom(object[key])`), a parsed object goes through `decode`, and a parsed
array is neither a reference nor a builder encoding, hence the `Unknown
encoding` error. -/
def decodeField (w : Window) (cfg : Config) (len : Nat) : JVal → Except Err DVal
  | .jnull => .ok (.datom .null)
  | .jbool b => .ok (.datom (.bool b))
  | .jnum v => .ok (.datom (.num (.fin v)))
  | .jstr s => .ok (.datom (.str s))
  | .jarr _ => .error (.resurrectErr "Unknown encoding.")
  | .jobj fields => decodeEnc w cfg len fields

/-- Decode every field of a parsed array slot. -/
def decodeElemsList (w : Window) (cfg : Config) (len : Nat) :
    List JVal → Except Err (List DVal)
  | [] => .ok []
  | j :: rest =>
      match decodeField w cfg len j with
      | .error e => .error e
      | .ok d =>
          match decodeElemsList w cfg len rest with
          | .error e => .error e
          | .ok ds => .ok (d :: ds)

/-- Decode every field of a parsed object slot. -/
def decodeFieldsList (w : Window) (cfg : Config) (len : Nat) :
    List (String × JVal) → Except Err (List (String × DVal))
  | [] => .ok []
  | (k, j) :: rest =>
      match decodeField w cfg len j with
      | .error e => .error e
      | .ok d =>
          match decodeFieldsList w cfg len rest with
          | .error e => .error e
          | .ok fs => .ok ((k, d) :: fs)

/-- The per-slot decode loop body: `for key in object` over own keys,
replacing every non-atom with its decoded value. -/
def decodeSlot (w : Window) (cfg : Config) (len : Nat) : JVal → Except Err DObj
  | .jarr elems =>
      match decodeElemsList w cfg len elems with
      | .error e => .error e
      | .ok ds => .ok (.darr ds)
  | .jobj fields =>
      match decodeFieldsList w cfg len fields with
      | .error e => .error e
      | .ok fs => .ok (.dobj fs objectProto)
  | j => .ok (.dprim j)

/-- `Resurrect.prototype.fixPrototype`: when a slot carries the type-tag
property, look the name up in the global object and reattach that
constructor's prototype, failing with the library's `Unknown constructor`
error when the lookup comes back falsy; in cleanup mode the tag property is
then deleted.  A parsed array slot carries no tag property.  Applying the
`in` operator to a primitive slot throws a native `TypeError`. -/
def fixPrototype (w : Window) (cfg : Config) : DObj → Except Err DObj
  | .dobj fields _ =>
      match lookupF fields cfg.pfx with
      | some (.datom (.str name)) =>
          match windowLookup w name with
          | some e =>
              .ok (.dobj (if cfg.cleanup then delF fields cfg.pfx else fields) e.protoOf)
          | none => .error (.resurrectErr ("Unknown constructor: " ++ name))
      | some _ => .error (.resurrectErr "Unknown constructor")
      | none => .ok (.dobj fields objectProto)
  | .darr es => .ok (.darr es)
  | .dprim _ => .error .nativeTypeErr

/-- One slot of the decode loop: decode the slot's fields in place, then
reattach its prototype when `revive` is set. -/
def processSlot (w : Window) (cfg : Config) (len : Nat) (s : JVal) : Except Err DObj :=
  match decodeSlot w cfg len s with
  | .error e => .error e
  | .ok d => if cfg.revive then fixPrototype w cfg d else .ok d

/-- Process the parsed table slot by slot. -/
def decodeSlots (w : Window) (cfg : Config) (len : Nat) :
    List JVal → Except Err (List DObj)
  | [] => .ok []
  | s :: rest =>
      match processSlot w cfg len s with
      | .error e => .error e
      | .ok d =>
          match decodeSlots w cfg len rest with
          | .error e => .error e
          | .ok ds => .ok (d :: ds)

/-- `Resurrect.prototype.resurrect` on a parsed wire tree: an array is the
rebuilt table (the result being its slot 0), a parsed object is a single
reference or builder encoding decoded against an empty table, and anything
else is an atomic root returned as is. -/
def resurrect (w : Window) (cfg : Config) : JVal → Except Err (List DObj × DVal)
  | .jarr slots =>
      match decodeSlots w cfg slots.length slots with
      | .error e => .error e
      | .ok table =>
          .ok (table, if slots.length = 0 then .datom .undef else .dref 0)
  | .jobj fields =>
      match decodeEnc w cfg 0 fields with
      | .error e => .error e
      | .ok v => .ok ([], v)
  | .jnull => .ok ([], .datom .null)
  | .jbool b => .ok ([], .datom (.bool b))
  | .jnum v => .ok ([], .datom (.num (.fin v)))
  | .jstr s => .ok ([], .datom (.str s))

/-! ## Structural views and well-formedness -/

/-- The unfolding of an acyclic graph into a tree of atoms, sequences and
keyed mappings; the notion of structural shape used for "structurally
equal". -/
inductive Tree where
  | tatom (a : JSAtom)
  | tarr (l : List Tree)
  | tobj (fields : List (String × Tree))

/-- Map an option-valued function over a list, failing when any element
fails. -/
def optListMap {A B : Type} (f : A → Option B) : List A → Option (List B)
  | [] => some []
  | x :: rest =>
      match f x with
      | none => none
      | some y =>
          match optListMap f rest with
          | none => none
          | some ys => some (y :: ys)

/-- Same, over an association list, keeping the keys. -/
def optFieldsMap {A B : Type} (f : A → Option B) :
    List (String × A) → Option (List (String × B))
  | [] => some []
  | (k, x) :: rest =>
      match f x with
      | none => none
      | some y =>
          match optFieldsMap f rest with
          | none => none
          | some ys => some ((k, y) :: ys)

/-- Unfold a source value into a tree; `none` when the fuel runs out (in
particular on every cyclic graph, given fuel past the heap size) or on a
dangling reference. -/
def srcToTree (h : Heap) (fuel : Nat) : HVal → Option Tree :=
  Nat.rec
    (fun v =>
      match v with
      | .atomv a => some (.tatom a)
      | .ref _ => none)
    (fun _ ih v =>
      match v with
      | .atomv a => some (.tatom a)
      | .ref n =>
          match h[n]? with
          | none => none
          | some (.arr elems _) =>
              match optListMap ih elems with
              | none => none
              | some ts => some (.tarr ts)
          | some (.obj fields _) =>
              match optFieldsMap ih fields with
              | none => none
              | some ts => some (.tobj ts))
    fuel

theorem srcToTree_atom (h : Heap) (fuel : Nat) (a : JSAtom) :
    srcToTree h fuel (.atomv a) = some (.tatom a) := by
  cases fuel <;> rfl

theorem srcToTree_succ_ref (h : Heap) (fuel : Nat) (n : Nat) :
    srcToTree h (fuel + 1) (.ref n) =
      match h[n]? with
      | none => none
      | some (.arr elems _) =>
          match optListMap (srcToTree h fuel) elems with
          | none => none
          | some ts => some (.tarr ts)
      | some (.obj fields _) =>
          match optFieldsMap (srcToTree h fuel) fields with
          | none => none
          | some ts => some (.tobj ts) := rfl

/-- Unfold a decoded value against the rebuilt table. -/
def decToTree (t : List DObj) (fuel : Nat) : DVal → Option Tree :=
  Nat.rec
    (fun v =>
      match v with
      | .datom a => some (.tatom a)
      | .dnew _ => none
      | .dref _ => none)
    (fun _ ih v =>
      match v with
      | .datom a => some (.tatom a)
      | .dnew _ => none
      | .dref n =>
          match t[n]? with
          | none => none
          | some (.darr elems) =>
              match optListMap ih elems with
              | none => none
              | some ts => some (.tarr ts)
          | some (.dobj fields _) =>
              match optFieldsMap ih fields with
              | none => none
              | some ts => some (.tobj ts)
          | some (.dprim _) => none)
    fuel

theorem decToTree_atom (t : List DObj) (fuel : Nat) (a : JSAtom) :
    decToTree t fuel (.datom a) = some (.tatom a) := by
  cases fuel <;> rfl

theorem decToTree_succ_ref (t : List DObj) (fuel : Nat) (n : Nat) :
    decToTree t (fuel + 1) (.dref n) =
      match t[n]? with
      | none => none
      | some (.darr elems) =>
          match optListMap (decToTree t fuel) elems with
          | none => none
          | some ts => some (.tarr ts)
      | some (.dobj fields _) =>
          match optFieldsMap (decToTree t fuel) fields with
          | none => none
          | some ts => some (.tobj ts)
      | some (.dprim _) => none := rfl

/-- All keys (fields of objects, non-index properties of arrays) of a heap
object. -/
def HObj.keys : HObj → List String
  | .arr _ props => props.map Prod.fst
  | .obj fields _ => fields.map Prod.fst

/-- Every value directly stored in a heap object. -/
def HObj.vals : HObj → List HVal
  | .arr elems props => elems ++ props.map Prod.snd
  | .obj fields _ => fields.map Prod.snd

/-- A fresh caller graph: no identity tags anywhere. -/
def UntaggedHeap (cfg : Config) (h : Heap) : Prop :=
  ∀ o ∈ h, o.getTag cfg = none

/-- A caller key that is clean with respect to the marker: the marker string
is not a prefix of it.  Decidable, and implying distinctness from every
marker-derived property name. -/
def cleanKey (pfx k : String) : Bool := !(pfx.data.isPrefixOf k.data)

theorem cleanKey_ne (pfx k : String) (h : cleanKey pfx k = true) :
    ∀ s : String, k ≠ pfx ++ s := by
  intro s hc
  have : pfx.data.isPrefixOf k.data = true := by
    apply List.isPrefixOf_iff_prefix.mpr
    rw [hc]
    simp [String.data_append]
  simp [cleanKey, this] at h

/-- The interface precondition of §Options in the README: the caller's data
uses no property name beginning with the configured marker string. -/
def CleanKeys (cfg : Config) (h : Heap) : Prop :=
  ∀ o ∈ h, ∀ k ∈ o.keys, cleanKey cfg.pfx k = true

/-- Every reference stored in the heap is a real address. -/
def ClosedHeap (h : Heap) : Prop :=
  ∀ o ∈ h, ∀ v ∈ o.vals, ∀ n, v = .ref n → n < h.length

/-- Every object in the heap is a plain object literal. -/
def PlainProtos (h : Heap) : Prop :=
  ∀ o ∈ h, ∀ fields proto, o = .obj fields proto → proto = objectProto

/-- A code value (function) is reachable from the given value. -/
inductive ReachesFn (h : Heap) : HVal → Prop
  | fn : ReachesFn h (.atomv .fn)
  | arrElem {n : Nat} {elems : List HVal} {props : List (String × HVal)} {v : HVal} :
      h[n]? = some (.arr elems props) → v ∈ elems → ReachesFn h v → ReachesFn h (.ref n)
  | objField {n : Nat} {fields : List (String × HVal)} {p : Proto} {k : String} {v : HVal} :
      h[n]? = some (.obj fields p) → (k, v) ∈ fields → ReachesFn h v → ReachesFn h (.ref n)

/-- An atom on which the structural text codec is lossless: not a function
and not a non-finite number. -/
def safeAtom : JSAtom → Bool
  | .fn => false
  | .num (.fin _) => true
  | .num _ => false
  | _ => true

/-- Every atom stored in the heap is safe. -/
def SafeHeapAtoms (h : Heap) : Prop :=
  ∀ o ∈ h, ∀ v ∈ o.vals, ∀ a, v = .atomv a → safeAtom a = true

/-- Sequences are plain: arrays carry no non-index properties. -/
def NoArrProps (h : Heap) : Prop :=
  ∀ o ∈ h, ∀ elems props, o = .arr elems props → props = []

/-! ## Key-distinctness facts about the marker strings -/

theorem string_append_cancel {a b c : String} (h : a ++ b = a ++ c) : b = c := by
  have hd : (a ++ b).data = (a ++ c).data := by rw [h]
  simp [String.data_append] at hd
  exact String.ext hd

theorem append_ne_of_ne (p : String) {a b : String} (h : a ≠ b) : p ++ a ≠ p ++ b :=
  fun hc => h (string_append_cancel hc)

theorem self_ne_append (p : String) {s : String} (h : s ≠ "") : p ≠ p ++ s := by
  intro hc
  have h2 : p ++ "" = p ++ s := by
    rw [String.append_empty]
    exact hc
  exact h (string_append_cancel h2).symm

/-! ## Small facts about tags on heap objects -/

section TagFacts
variable (cfg : Config)

theorem getTag_setTag (o : HObj) (v : HVal) :
    (o.setTag cfg v).getTag cfg = some v := by
  cases o <;> simp [HObj.setTag, HObj.getTag, lookupF_setF_self]

theorem isTagged_setTag_num (o : HObj) (i : Int) :
    (o.setTag cfg (.atomv (.num (.fin i)))).isTagged cfg = true := by
  simp [HObj.isTagged, getTag_setTag]

theorem isTagged_setTag_null (o : HObj) :
    (o.setTag cfg (.atomv .null)).isTagged cfg = false := by
  simp [HObj.isTagged, getTag_setTag]

theorem isTagged_of_getTag_none {o : HObj} (h : o.getTag cfg = none) :
    o.isTagged cfg = false := by
  simp [HObj.isTagged, h]

theorem delTag_of_getTag_none {o : HObj} (h : o.getTag cfg = none) :
    o.delTag cfg = o := by
  cases o <;>
    simp_all [HObj.delTag, HObj.getTag, delF_of_lookupF_none]

theorem delTag_setTag_of_none {o : HObj} (h : o.getTag cfg = none) (v : HVal) :
    (o.setTag cfg v).delTag cfg = o := by
  cases o <;>
    simp_all [HObj.delTag, HObj.setTag, HObj.getTag, setF_eq_append, delF_append_singleton]

theorem setF_setF {α : Type} (l : List (String × α)) (k : String) (v v' : α) :
    setF (setF l k v) k v' = setF l k v' := by
  induction l with
  | nil => simp [setF]
  | cons hd t ih =>
      obtain ⟨k', w'⟩ := hd
      by_cases h : k' = k
      · simp [setF, h]
      · simp [setF, h, ih]

theorem setTag_setTag (o : HObj) (v v' : HVal) :
    ((o.setTag cfg v).setTag cfg v') = o.setTag cfg v' := by
  cases o <;> simp [HObj.setTag, setF_setF]

theorem getTag_delTag_setTag {o : HObj} (h : o.getTag cfg = none) (v : HVal) :
    ((o.setTag cfg v).delTag cfg).getTag cfg = none := by
  rw [delTag_setTag_of_none cfg h]
  exact h

end TagFacts

/-! ## Heap evolution: the only mutation the encoder performs -/

section Evolve
variable (cfg : Config)

/-- One node's possible change during an encode pass: untouched, or (when
previously untagged) given an integer identity tag. -/
def tagStepR (o o' : HObj) : Prop :=
  o' = o ∨ (o.isTagged cfg = false ∧
            ∃ i : Nat, o' = o.setTag cfg (.atomv (.num (.fin (i : Int)))))

/-- Pointwise heap evolution. -/
def HeapEvolves (h h' : Heap) : Prop := List.Forall₂ (tagStepR cfg) h h'

theorem tagStepR_refl (o : HObj) : tagStepR cfg o o := Or.inl rfl

theorem tagStepR_trans {a b c : HObj} (h1 : tagStepR cfg a b) (h2 : tagStepR cfg b c) :
    tagStepR cfg a c := by
  rcases h2 with rfl | ⟨hb, i, rfl⟩
  · exact h1
  · rcases h1 with rfl | ⟨ha, j, rfl⟩
    · exact Or.inr ⟨hb, i, rfl⟩
    · rw [isTagged_setTag_num] at hb
      exact absurd hb (by simp)

theorem heapEvolves_refl (h : Heap) : HeapEvolves cfg h h := by
  induction h with
  | nil => exact List.Forall₂.nil
  | cons hd t ih => exact List.Forall₂.cons (tagStepR_refl cfg hd) ih

theorem heapEvolves_trans {h1 h2 h3 : Heap}
    (a : HeapEvolves cfg h1 h2) (b : HeapEvolves cfg h2 h3) : HeapEvolves cfg h1 h3 := by
  induction a generalizing h3 with
  | nil =>
      cases b
      exact List.Forall₂.nil
  | @cons x y t1 t2 hr ht ih =>
      cases b with
      | cons hr2 ht2 => exact List.Forall₂.cons (tagStepR_trans cfg hr hr2) (ih ht2)

theorem heapEvolves_length {h h' : Heap} (a : HeapEvolves cfg h h') :
    h'.length = h.length := a.length_eq.symm

end Evolve

/-- Pointwise access through a `Forall₂`. -/
theorem forall₂_getElem?_left {α β : Type} {R : α → β → Prop} {l1 : List α} {l2 : List β}
    (h : List.Forall₂ R l1 l2) (n : Nat) (a : α) (ha : l1[n]? = some a) :
    ∃ b, l2[n]? = some b ∧ R a b := by
  induction h generalizing n with
  | nil => simp at ha
  | @cons x y t1 t2 hr ht ih =>
      cases n with
      | zero =>
          simp only [List.getElem?_cons_zero, Option.some.injEq] at ha
          subst ha
          exact ⟨y, by simp, hr⟩
      | succ m =>
          simp only [List.getElem?_cons_succ] at ha ⊢
          exact ih m ha

theorem forall₂_getElem?_right {α β : Type} {R : α → β → Prop} {l1 : List α} {l2 : List β}
    (h : List.Forall₂ R l1 l2) (n : Nat) (b : β) (hb : l2[n]? = some b) :
    ∃ a, l1[n]? = some a ∧ R a b := by
  induction h generalizing n with
  | nil => simp at hb
  | @cons x y t1 t2 hr ht ih =>
      cases n with
      | zero =>
          simp only [List.getElem?_cons_zero, Option.some.injEq] at hb
          subst hb
          exact ⟨x, by simp, hr⟩
      | succ m =>
          simp only [List.getElem?_cons_succ] at hb ⊢
          exact ih m hb

section Evolve2
variable (cfg : Config)

theorem heapEvolves_get {h h' : Heap} (a : HeapEvolves cfg h h') {n : Nat} {o : HObj}
    (ho : h[n]? = some o) : ∃ o', h'[n]? = some o' ∧ tagStepR cfg o o' :=
  forall₂_getElem?_left a n o ho

/-- Setting a fresh integer tag on one untagged node is a heap evolution. -/
theorem heapEvolves_set {h : Heap} {n : Nat} {o : HObj} (ho : h[n]? = some o)
    (hu : o.isTagged cfg = false) (i : Nat) :
    HeapEvolves cfg h (h.set n (o.setTag cfg (.atomv (.num (.fin (i : Int)))))) := by
  induction h generalizing n with
  | nil => simp at ho
  | cons hd t ih =>
      cases n with
      | zero =>
          simp only [List.getElem?_cons_zero, Option.some.injEq] at ho
          subst ho
          exact List.Forall₂.cons (Or.inr ⟨hu, i, rfl⟩) (heapEvolves_refl cfg t)
      | succ m =>
          simp only [List.getElem?_cons_succ] at ho
          exact List.Forall₂.cons (tagStepR_refl cfg hd) (ih ho)

/-- Tagged nodes are literally unchanged by any further evolution. -/
theorem heapEvolves_tagged_fixed {h h' : Heap} (a : HeapEvolves cfg h h') {n : Nat} {o : HObj}
    (ho : h[n]? = some o) (ht : o.isTagged cfg = true) : h'[n]? = some o := by
  obtain ⟨o', ho', hr⟩ := heapEvolves_get cfg a ho
  rcases hr with rfl | ⟨hu, _, _⟩
  · exact ho'
  · rw [ht] at hu
    exact absurd hu (by simp)

theorem countUntagged_mono {h h' : Heap} (a : HeapEvolves cfg h h') :
    countUntagged cfg h' ≤ countUntagged cfg h := by
  induction a with
  | nil => exact Nat.le_refl _
  | @cons x y t1 t2 hr ht ih =>
      rcases hr with rfl | ⟨hu, i, rfl⟩
      · simp only [countUntagged]
        exact Nat.add_le_add_left ih _
      · simp only [countUntagged]
        simp [hu, isTagged_setTag_num]
        omega

theorem countUntagged_set_lt {h : Heap} {n : Nat} {o : HObj} (ho : h[n]? = some o)
    (hu : o.isTagged cfg = false) {o' : HObj} (ht : o'.isTagged cfg = true) :
    countUntagged cfg (h.set n o') < countUntagged cfg h := by
  induction h generalizing n with
  | nil => simp at ho
  | cons hd t ih =>
      cases n with
      | zero =>
          simp only [List.getElem?_cons_zero, Option.some.injEq] at ho
          subst ho
          simp only [List.set_cons_zero, countUntagged]
          simp [hu, ht]
      | succ m =>
          simp only [List.getElem?_cons_succ] at ho
          simp only [List.set_cons_succ, countUntagged]
          exact Nat.add_lt_add_left (ih ho) _

end Evolve2

/-! ## Preservation: what every successful visit leaves intact -/

theorem set_append_len {α : Type} (l1 l2 : List α) (a : α) :
    (l1 ++ l2).set l1.length a = l1 ++ l2.set 0 a := by
  induction l1 with
  | nil => simp
  | cons hd t ih => simp [ih]

section PresSec
variable (w : Window) (cfg : Config)

/-- Any successful visit only evolves the heap by fresh tagging and only
extends the table past the existing slots. -/
def Pres (st st' : EncSt) : Prop :=
  HeapEvolves cfg st.heap st'.heap ∧ ∃ ext, st'.table = st.table ++ ext

theorem pres_refl (st : EncSt) : Pres cfg st st :=
  ⟨heapEvolves_refl cfg _, [], by simp⟩

theorem pres_trans {s1 s2 s3 : EncSt} (a : Pres cfg s1 s2) (b : Pres cfg s2 s3) :
    Pres cfg s1 s3 := by
  obtain ⟨ha, ea, hta⟩ := a
  obtain ⟨hb, eb, htb⟩ := b
  exact ⟨heapEvolves_trans cfg ha hb, ea ++ eb, by rw [htb, hta, List.append_assoc]⟩

def VisitPresP (f : EncSt → HVal → Except Err (Enc × EncSt)) : Prop :=
  ∀ st v e st', f st v = .ok (e, st') → Pres cfg st st'

theorem pres_tagStArr {st : EncSt} {n : Nat} {elems : List HVal}
    {props : List (String × HVal)} (tg : Option String)
    (ho : st.heap[n]? = some (.arr elems props))
    (hu : HObj.isTagged cfg (.arr elems props) = false) :
    Pres cfg st (tagStArr cfg st n elems props tg) :=
  ⟨heapEvolves_set cfg ho hu st.table.length, [⟨true, [], [], tg, n⟩], rfl⟩

theorem pres_tagStObj {st : EncSt} {n : Nat} {fields : List (String × HVal)}
    {proto : Proto} (tg : Option String)
    (ho : st.heap[n]? = some (.obj fields proto))
    (hu : HObj.isTagged cfg (.obj fields proto) = false) :
    Pres cfg st (tagStObj cfg st n fields proto tg) :=
  ⟨heapEvolves_set cfg ho hu st.table.length, [⟨false, [], [], tg, n⟩], rfl⟩

theorem visitElemsF_pres {f : EncSt → HVal → Except Err (Enc × EncSt)}
    (hf : VisitPresP cfg f) :
    ∀ (l : List HVal) (st : EncSt) (es : List Enc) (st' : EncSt),
      visitElemsF f st l = .ok (es, st') → Pres cfg st st' := by
  intro l
  induction l with
  | nil =>
      intro st es st' h
      simp only [visitElemsF, Except.ok.injEq, Prod.mk.injEq] at h
      obtain ⟨-, rfl⟩ := h
      exact pres_refl cfg st
  | cons v rest ih =>
      intro st es st' h
      simp only [visitElemsF] at h
      cases hfv : f st v with
      | error e2 => simp only [hfv] at h; cases h
      | ok p =>
          obtain ⟨e1, st1⟩ := p
          simp only [hfv] at h
          cases hrest : visitElemsF f st1 rest with
          | error e2 => simp only [hrest] at h; cases h
          | ok q =>
              obtain ⟨es2, st2⟩ := q
              simp only [hrest] at h
              simp only [Except.ok.injEq, Prod.mk.injEq] at h
              obtain ⟨-, rfl⟩ := h
              exact pres_trans cfg (hf st v e1 st1 hfv) (ih st1 es2 st2 hrest)

theorem visitFieldsF_pres {f : EncSt → HVal → Except Err (Enc × EncSt)}
    (hf : VisitPresP cfg f) :
    ∀ (l : List (String × HVal)) (st : EncSt) (fs : List (String × Enc)) (st' : EncSt),
      visitFieldsF f st l = .ok (fs, st') → Pres cfg st st' := by
  intro l
  induction l with
  | nil =>
      intro st fs st' h
      simp only [visitFieldsF, Except.ok.injEq, Prod.mk.injEq] at h
      obtain ⟨-, rfl⟩ := h
      exact pres_refl cfg st
  | cons kv rest ih =>
      obtain ⟨k, v⟩ := kv
      intro st fs st' h
      simp only [visitFieldsF] at h
      cases hfv : f st v with
      | error e2 => simp only [hfv] at h; cases h
      | ok p =>
          obtain ⟨e1, st1⟩ := p
          simp only [hfv] at h
          cases hrest : visitFieldsF f st1 rest with
          | error e2 => simp only [hrest] at h; cases h
          | ok q =>
              obtain ⟨fs2, st2⟩ := q
              simp only [hrest] at h
              simp only [Except.ok.injEq, Prod.mk.injEq] at h
              obtain ⟨-, rfl⟩ := h
              exact pres_trans cfg (hf st v e1 st1 hfv) (ih st1 fs2 st2 hrest)

/-- Rebuild the table fact after the finished copy is written into the
placeholder slot. -/
theorem table_after_finish {t ext : List Copy} (ph c : Copy) :
    ((t ++ [ph]) ++ ext).set t.length c = t ++ (c :: ext) := by
  rw [List.append_assoc, set_append_len]
  simp

theorem visitStep_pres {f : EncSt → HVal → Except Err (Enc × EncSt)}
    (hf : VisitPresP cfg f) {st : EncSt} {n : Nat} {e : Enc} {st' : EncSt}
    (h : visitStep w cfg f st n = .ok (e, st')) : Pres cfg st st' := by
  unfold visitStep at h
  cases ho : st.heap[n]? with
  | none => simp only [ho] at h; cases h
  | some o =>
      simp only [ho] at h
      by_cases htag : o.isTagged cfg
      · rw [if_pos htag] at h
        simp only [Except.ok.injEq, Prod.mk.injEq] at h
        obtain ⟨-, rfl⟩ := h
        exact pres_refl cfg st
      · rw [if_neg htag] at h
        rw [Bool.not_eq_true] at htag
        cases o with
        | arr elems props =>
            cases htc : tagCheck w cfg true objectProto with
            | error e2 => simp only [htc] at h; cases h
            | ok tg =>
                simp only [htc] at h
                cases hv : visitElemsF f (tagStArr cfg st n elems props tg) elems with
                | error e2 => simp only [hv] at h; cases h
                | ok q =>
                    obtain ⟨es, st2⟩ := q
                    simp only [hv] at h
                    simp only [Except.ok.injEq, Prod.mk.injEq] at h
                    obtain ⟨-, rfl⟩ := h
                    have h1 := pres_tagStArr cfg tg ho htag
                    have h2 := visitElemsF_pres cfg hf elems _ es st2 hv
                    obtain ⟨he1, ext1, ht1⟩ := h1
                    obtain ⟨he2, ext2, ht2⟩ := h2
                    have htab : st2.table.set st.table.length (⟨true, es, [], tg, n⟩ : Copy)
                        = st.table ++ (⟨true, es, [], tg, n⟩ :: ext2) := by
                      rw [ht2]
                      exact table_after_finish _ _
                    exact ⟨heapEvolves_trans cfg he1 he2,
                           ⟨true, es, [], tg, n⟩ :: ext2, htab⟩
        | obj fields proto =>
            cases htc : tagCheck w cfg false proto with
            | error e2 => simp only [htc] at h; cases h
            | ok tg =>
                simp only [htc] at h
                cases hv : visitFieldsF f (tagStObj cfg st n fields proto tg)
                    (setF fields cfg.refcode (.atomv (.num (.fin (st.table.length : Int))))) with
                | error e2 => simp only [hv] at h; cases h
                | ok q =>
                    obtain ⟨fs, st2⟩ := q
                    simp only [hv] at h
                    simp only [Except.ok.injEq, Prod.mk.injEq] at h
                    obtain ⟨-, rfl⟩ := h
                    have h1 := pres_tagStObj cfg tg ho htag
                    have h2 := visitFieldsF_pres cfg hf _ _ fs st2 hv
                    obtain ⟨he1, ext1, ht1⟩ := h1
                    obtain ⟨he2, ext2, ht2⟩ := h2
                    have htab : st2.table.set st.table.length (⟨false, [], fs, tg, n⟩ : Copy)
                        = st.table ++ (⟨false, [], fs, tg, n⟩ :: ext2) := by
                      rw [ht2]
                      exact table_after_finish _ _
                    exact ⟨heapEvolves_trans cfg he1 he2,
                           ⟨false, [], fs, tg, n⟩ :: ext2, htab⟩

theorem visit_pres : ∀ fuel : Nat, VisitPresP cfg (visit w cfg fuel) := by
  intro fuel
  induction fuel with
  | zero =>
      intro st v e st' h
      cases v with
      | atomv a =>
          rw [visit_atom] at h
          cases hha : handleAtom a with
          | error e2 => simp only [hha] at h; cases h
          | ok enc =>
              simp only [hha] at h
              simp only [Except.ok.injEq, Prod.mk.injEq] at h
              obtain ⟨-, rfl⟩ := h
              exact pres_refl cfg st
      | ref n => rw [visit_zero_ref] at h; cases h
  | succ fuel ih =>
      intro st v e st' h
      cases v with
      | atomv a =>
          rw [visit_atom] at h
          cases hha : handleAtom a with
          | error e2 => simp only [hha] at h; cases h
          | ok enc =>
              simp only [hha] at h
              simp only [Except.ok.injEq, Prod.mk.injEq] at h
              obtain ⟨-, rfl⟩ := h
              exact pres_refl cfg st
      | ref n =>
          rw [visit_succ_ref] at h
          exact visitStep_pres w cfg ih h

end PresSec

/-! ## Termination: the supplied fuel never runs out -/

section TermSec
variable (w : Window) (cfg : Config)

theorem tagCheck_ne_oof (b : Bool) (p : Proto) :
    tagCheck w cfg b p ≠ .error .outOfFuel := by
  unfold tagCheck
  split_ifs <;> try simp
  cases windowLookup w p.ctorName with
  | none => simp
  | some e =>
      by_cases hp : e.protoOf = p
      · simp [hp]
      · simp [hp]

theorem handleAtom_ne_oof (a : JSAtom) : handleAtom a ≠ .error .outOfFuel := by
  cases a <;> simp [handleAtom]

theorem visitElemsF_no_oof (fuel : Nat)
    (hf : ∀ st v, countUntagged cfg st.heap < fuel →
          visit w cfg fuel st v ≠ .error .outOfFuel) :
    ∀ (l : List HVal) (st : EncSt), countUntagged cfg st.heap < fuel →
      visitElemsF (visit w cfg fuel) st l ≠ .error .outOfFuel := by
  intro l
  induction l with
  | nil =>
      intro st hc
      simp [visitElemsF]
  | cons v rest ih =>
      intro st hc
      simp only [visitElemsF]
      cases hfv : visit w cfg fuel st v with
      | error e2 =>
          simp only [hfv]
          intro hcon
          cases hcon
          exact hf st v hc hfv
      | ok p =>
          obtain ⟨e1, st1⟩ := p
          have hle : countUntagged cfg st1.heap ≤ countUntagged cfg st.heap :=
            countUntagged_mono cfg (visit_pres w cfg fuel st v e1 st1 hfv).1
          simp only [hfv]
          cases hrest : visitElemsF (visit w cfg fuel) st1 rest with
          | error e2 =>
              simp only [hrest]
              intro hcon
              cases hcon
              exact ih st1 (Nat.lt_of_le_of_lt hle hc) hrest
          | ok q =>
              simp only [hrest]
              obtain ⟨es, st2⟩ := q
              simp

theorem visitFieldsF_no_oof (fuel : Nat)
    (hf : ∀ st v, countUntagged cfg st.heap < fuel →
          visit w cfg fuel st v ≠ .error .outOfFuel) :
    ∀ (l : List (String × HVal)) (st : EncSt), countUntagged cfg st.heap < fuel →
      visitFieldsF (visit w cfg fuel) st l ≠ .error .outOfFuel := by
  intro l
  induction l with
  | nil =>
      intro st hc
      simp [visitFieldsF]
  | cons kv rest ih =>
      obtain ⟨k, v⟩ := kv
      intro st hc
      simp only [visitFieldsF]
      cases hfv : visit w cfg fuel st v with
      | error e2 =>
          simp only [hfv]
          intro hcon
          cases hcon
          exact hf st v hc hfv
      | ok p =>
          obtain ⟨e1, st1⟩ := p
          have hle : countUntagged cfg st1.heap ≤ countUntagged cfg st.heap :=
            countUntagged_mono cfg (visit_pres w cfg fuel st v e1 st1 hfv).1
          simp only [hfv]
          cases hrest : visitFieldsF (visit w cfg fuel) st1 rest with
          | error e2 =>
              simp only [hrest]
              intro hcon
              cases hcon
              exact ih st1 (Nat.lt_of_le_of_lt hle hc) hrest
          | ok q =>
              simp only [hrest]
              obtain ⟨fs, st2⟩ := q
              simp

/-- The fuel bound: a visit with more fuel than there are untagged heap
objects cannot run out, because every descent into a composite first tags
it. -/
theorem visit_no_oof : ∀ (fuel : Nat) (st : EncSt) (v : HVal),
    countUntagged cfg st.heap < fuel →
    visit w cfg fuel st v ≠ .error .outOfFuel := by
  intro fuel
  induction fuel with
  | zero =>
      intro st v hc
      exact absurd hc (Nat.not_lt_zero _)
  | succ fuel ih =>
      intro st v hc
      cases v with
      | atomv a =>
          rw [visit_atom]
          cases hha : handleAtom a with
          | error e2 =>
              simp only [hha]
              intro hcon
              cases hcon
              exact handleAtom_ne_oof a hha
          | ok enc => simp [hha]
      | ref n =>
          rw [visit_succ_ref]
          unfold visitStep
          cases ho : st.heap[n]? with
          | none => simp
          | some o =>
              simp only []
              by_cases htag : o.isTagged cfg
              · rw [if_pos htag]
                simp
              · rw [if_neg htag]
                rw [Bool.not_eq_true] at htag
                cases o with
                | arr elems props =>
                    cases htc : tagCheck w cfg true objectProto with
                    | error e2 =>
                        simp only [htc]
                        intro hcon
                        cases hcon
                        exact tagCheck_ne_oof w cfg true objectProto htc
                    | ok tg =>
                        simp only [htc]
                        have hcount : countUntagged cfg (tagStArr cfg st n elems props tg).heap
                            < fuel := by
                          have hlt := countUntagged_set_lt cfg ho htag
                            (isTagged_setTag_num cfg (HObj.arr elems props) ((st.table.length : Int)))
                          have hle2 : countUntagged cfg st.heap ≤ fuel := Nat.lt_succ_iff.mp hc
                          exact Nat.lt_of_lt_of_le hlt hle2
                        cases hv : visitElemsF (visit w cfg fuel)
                            (tagStArr cfg st n elems props tg) elems with
                        | error e2 =>
                            simp only [hv]
                            intro hcon
                            cases hcon
                            exact visitElemsF_no_oof w cfg fuel ih elems _ hcount hv
                        | ok q =>
                            simp only [hv]
                            obtain ⟨es, st2⟩ := q
                            simp
                | obj fields proto =>
                    cases htc : tagCheck w cfg false proto with
                    | error e2 =>
                        simp only [htc]
                        intro hcon
                        cases hcon
                        exact tagCheck_ne_oof w cfg false proto htc
                    | ok tg =>
                        simp only [htc]
                        have hcount : countUntagged cfg (tagStObj cfg st n fields proto tg).heap
                            < fuel := by
                          have hlt := countUntagged_set_lt cfg ho htag
                            (isTagged_setTag_num cfg (HObj.obj fields proto) ((st.table.length : Int)))
                          have hle2 : countUntagged cfg st.heap ≤ fuel := Nat.lt_succ_iff.mp hc
                          exact Nat.lt_of_lt_of_le hlt hle2
                        cases hv : visitFieldsF (visit w cfg fuel)
                            (tagStObj cfg st n fields proto tg)
                            (setF fields cfg.refcode
                              (.atomv (.num (.fin (st.table.length : Int))))) with
                        | error e2 =>
                            simp only [hv]
                            intro hcon
                            cases hcon
                            exact visitFieldsF_no_oof w cfg fuel ih _ _ hcount hv
                        | ok q =>
                            simp only [hv]
                            obtain ⟨fs, st2⟩ := q
                            simp

/-- `stringify` never runs out of fuel: the model is total exactly where the
JavaScript terminates, reflecting that tagging-before-children bounds the
recursion by the number of composites. -/
theorem stringify_no_oof (h : Heap) (root : HVal) :
    stringify w cfg h root ≠ .error .outOfFuel := by
  cases root with
  | atomv a =>
      unfold stringify
      cases hha : handleAtom a with
      | error e2 =>
          simp only [hha]
          intro hcon
          cases hcon
          exact handleAtom_ne_oof a hha
      | ok enc => simp [hha]
  | ref n =>
      unfold stringify
      cases hv : visit w cfg (countUntagged cfg h + 1) ⟨h, []⟩ (.ref n) with
      | error e2 =>
          simp only [hv]
          intro hcon
          cases hcon
          exact visit_no_oof w cfg (countUntagged cfg h + 1) ⟨h, []⟩ (.ref n)
            (Nat.lt_succ_self _) hv
      | ok q =>
          obtain ⟨e1, st⟩ := q
          simp [hv]

end TermSec

/-! ## Soundness invariants of the encoder -/

/-- The canonical reading of a tag property value as a slot index. -/
def tagVal? : Option HVal → Option Int
  | some (.atomv (.num (.fin i))) => some i
  | _ => none

theorem tagVal?_eq_some {x : Option HVal} {i : Int} (h : tagVal? x = some i) :
    x = some (.atomv (.num (.fin i))) := by
  match x, h with
  | some (.atomv (.num (.fin j))), h =>
      simp only [tagVal?, Option.some.injEq] at h
      rw [h]

/-- The integer identity tag of the heap node at address `m`, when present
and canonical. -/
def idTag (cfg : Config) (h : Heap) (m : Nat) : Option Int :=
  match h[m]? with
  | none => none
  | some o => tagVal? (o.getTag cfg)

/-- How a source value relates to the encoding stored for it in a copy: a
safe atom is what `handleAtom` makes of it, a reference is the reference
encoding of the target's identity tag. -/
def encRel (cfg : Config) (h : Heap) : HVal → Enc → Prop
  | .atomv a, e => handleAtom a = .ok e
  | .ref m, e => ∃ i : Int, idTag cfg h m = some i ∧ 0 ≤ i ∧ e = .eref (.num (.fin i))

/-- The running invariant tying tags to table slots: every canonical tag
names a real slot whose copy points back at the tagged node; every slot's
original carries that slot's index as its tag; and every tag ever observed
is canonical. -/
def TagInv (cfg : Config) (st : EncSt) : Prop :=
  (∀ (m : Nat) (i : Int), idTag cfg st.heap m = some i →
    0 ≤ i ∧ i < (st.table.length : Int) ∧
    ∃ c, st.table[i.toNat]? = some c ∧ c.orig = m) ∧
  (∀ (i : Nat) (c : Copy), st.table[i]? = some c →
    idTag cfg st.heap c.orig = some (i : Int)) ∧
  (∀ (m : Nat) (o : HObj), st.heap[m]? = some o → o.isTagged cfg = true →
    (idTag cfg st.heap m).isSome)

/-- What the final state guarantees for a finished slot `i` holding copy `c`:
its tag points back at it, and the copy is the one-level image of the
original's elements or fields (the latter including the freshly written
refcode entry) under `encRel`. -/
def slotGood (w : Window) (cfg : Config) (h0 h : Heap) (i : Nat) (c : Copy) : Prop :=
  idTag cfg h c.orig = some (i : Int) ∧
  ((∃ elems props, h0[c.orig]? = some (.arr elems props) ∧
      c.isArr = true ∧ c.fields = [] ∧
      c.tag = (if cfg.revive then some "Array" else none) ∧
      List.Forall₂ (encRel cfg h) elems c.elems) ∨
   (∃ fields proto, h0[c.orig]? = some (.obj fields proto) ∧
      c.isArr = false ∧ c.elems = [] ∧
      tagCheck w cfg false proto = .ok c.tag ∧
      lookupF fields cfg.refcode = none ∧
      List.Forall₂ (fun kv ke => kv.1 = ke.1 ∧ encRel cfg h kv.2 ke.2)
        (fields ++ [(cfg.refcode, HVal.atomv (.num (.fin (i : Int))))]) c.fields))

section Stability
variable (w : Window) (cfg : Config)

theorem idTag_isTagged {h : Heap} {m : Nat} {i : Int} (hi : idTag cfg h m = some i) :
    ∃ o, h[m]? = some o ∧ o.getTag cfg = some (.atomv (.num (.fin i))) ∧
         o.isTagged cfg = true := by
  unfold idTag at hi
  cases ho : h[m]? with
  | none =>
      simp only [ho] at hi
      cases hi
  | some o =>
      simp only [ho] at hi
      have hg := tagVal?_eq_some hi
      exact ⟨o, rfl, hg, by simp [HObj.isTagged, hg]⟩

theorem idTag_stable {h h' : Heap} (he : HeapEvolves cfg h h') {m : Nat} {i : Int}
    (hi : idTag cfg h m = some i) : idTag cfg h' m = some i := by
  obtain ⟨o, ho, hg, ht⟩ := idTag_isTagged cfg hi
  have ho' := heapEvolves_tagged_fixed cfg he ho ht
  unfold idTag
  simp only [ho', hg]
  rfl

theorem encRel_stable {h h' : Heap} (he : HeapEvolves cfg h h') {v : HVal} {e : Enc}
    (hr : encRel cfg h v e) : encRel cfg h' v e := by
  cases v with
  | atomv a => exact hr
  | ref m =>
      obtain ⟨i, hi, hnn, rfl⟩ := hr
      exact ⟨i, idTag_stable cfg he hi, hnn, rfl⟩

theorem slotGood_stable {h0 h h' : Heap} (he : HeapEvolves cfg h h') {i : Nat} {c : Copy}
    (hg : slotGood w cfg h0 h i c) : slotGood w cfg h0 h' i c := by
  obtain ⟨hid, hrest⟩ := hg
  refine ⟨idTag_stable cfg he hid, ?_⟩
  rcases hrest with ⟨elems, props, hoo, h1, h2, h3, h4⟩ | ⟨fields, proto, hoo, h1, h2, h3, h4, h5⟩
  · exact Or.inl ⟨elems, props, hoo, h1, h2, h3,
      h4.imp (fun a b hab => encRel_stable cfg he hab)⟩
  · exact Or.inr ⟨fields, proto, hoo, h1, h2, h3, h4,
      h5.imp (fun a b hab => ⟨hab.1, encRel_stable cfg he hab.2⟩)⟩

theorem idTag_set_self {h : Heap} {n : Nat} {o : HObj} (ho : h[n]? = some o) (i : Int) :
    idTag cfg (h.set n (o.setTag cfg (.atomv (.num (.fin i))))) n = some i := by
  have hlt : n < h.length := (List.getElem?_eq_some_iff.mp ho).1
  unfold idTag
  rw [List.getElem?_set_self hlt]
  simp [getTag_setTag, tagVal?]

theorem idTag_set_ne (h : Heap) (n : Nat) (o' : HObj) {m : Nat} (hne : n ≠ m) :
    idTag cfg (h.set n o') m = idTag cfg h m := by
  unfold idTag
  rw [List.getElem?_set_ne hne]

/-- An untagged node has no canonical tag. -/
theorem idTag_none_of_untagged {h : Heap} {n : Nat} {o : HObj} (ho : h[n]? = some o)
    (hu : o.isTagged cfg = false) : idTag cfg h n = none := by
  unfold idTag
  rw [ho]
  show tagVal? (o.getTag cfg) = none
  unfold HObj.isTagged at hu
  cases hg : o.getTag cfg with
  | none => rfl
  | some v =>
      rw [hg] at hu
      cases v with
      | atomv a =>
          cases a with
          | null => rfl
          | undef => rfl
          | bool b => simp at hu
          | num nn => simp at hu
          | str s => simp at hu
          | date s => simp at hu
          | fn => simp at hu
      | ref k => simp at hu

end Stability

section TagStep
variable (w : Window) (cfg : Config)

/-- Tagging a fresh composite and pushing its placeholder keeps the
tag/slot invariant. -/
theorem tagInv_tagStep {st : EncSt} {n : Nat} {o : HObj}
    (ho : st.heap[n]? = some o) (hu : o.isTagged cfg = false)
    (hti : TagInv cfg st) (ph : Copy) (hph : ph.orig = n) :
    TagInv cfg ⟨st.heap.set n (o.setTag cfg (.atomv (.num (.fin (st.table.length : Int))))),
                st.table ++ [ph]⟩ := by
  obtain ⟨A, B, C⟩ := hti
  have hidn : idTag cfg st.heap n = none := idTag_none_of_untagged cfg ho hu
  refine ⟨?_, ?_, ?_⟩
  · intro m i hi
    by_cases hmn : m = n
    · subst hmn
      rw [idTag_set_self cfg ho] at hi
      simp only [Option.some.injEq] at hi
      subst hi
      refine ⟨by exact_mod_cast Nat.zero_le _, by simp only [List.length_append, List.length_cons, List.length_nil]; omega, ph, ?_, hph⟩
      have htn : ((st.table.length : Int)).toNat = st.table.length := by omega
      rw [htn]
      simp
    · rw [idTag_set_ne cfg _ _ _ (fun hh => hmn hh.symm)] at hi
      obtain ⟨hnn, hlt, c, hc, horig⟩ := A m i hi
      refine ⟨hnn, by simp only [List.length_append, List.length_cons, List.length_nil]; omega, c, ?_, horig⟩
      rw [List.getElem?_append_left (by omega)]
      exact hc
  · intro i c hc
    by_cases hlt : i < st.table.length
    · rw [List.getElem?_append_left hlt] at hc
      have hB := B i c hc
      have hne : c.orig ≠ n := by
        intro heq
        rw [heq, hidn] at hB
        cases hB
      rw [idTag_set_ne cfg _ _ _ (fun hh => hne hh.symm)]
      exact hB
    · have hge : st.table.length ≤ i := Nat.le_of_not_lt hlt
      rw [List.getElem?_append_right hge] at hc
      have hi0 : i - st.table.length = 0 := by
        cases hd : i - st.table.length with
        | zero => rfl
        | succ k => rw [hd] at hc; simp at hc
      rw [hi0] at hc
      simp only [List.getElem?_cons_zero, Option.some.injEq] at hc
      subst hc
      have hieq : i = st.table.length := by omega
      subst hieq
      rw [hph, idTag_set_self cfg ho]
  · intro m o' hmo' hto'
    by_cases hmn : m = n
    · subst hmn
      rw [idTag_set_self cfg ho]
      simp
    · show (idTag cfg (st.heap.set n _) m).isSome
      rw [idTag_set_ne cfg _ _ _ (fun hh => hmn hh.symm)]
      rw [List.getElem?_set_ne (fun hh => hmn hh.symm)] at hmo'
      exact C m o' hmo' hto'

end TagStep

section Sound
variable (w : Window) (cfg : Config) (h0 : Heap)

/-- The one-step soundness contract of a child visitor: starting from any
reachable state, a successful call preserves the heap-evolution and tag/slot
invariants, relates the returned encoding to the input value, certifies
every new table slot, and returns the next slot index as encoding when the
input was an untagged composite. -/
def VisitSoundP (f : EncSt → HVal → Except Err (Enc × EncSt)) : Prop :=
  ∀ st v e st',
    HeapEvolves cfg h0 st.heap → TagInv cfg st → f st v = .ok (e, st') →
    HeapEvolves cfg h0 st'.heap ∧ TagInv cfg st' ∧
    encRel cfg st'.heap v e ∧
    (∀ (i : Nat) (c : Copy), st.table.length ≤ i → st'.table[i]? = some c →
      slotGood w cfg h0 st'.heap i c) ∧
    (∀ (n : Nat) (o : HObj), v = .ref n → st.heap[n]? = some o →
      o.isTagged cfg = false → e = .eref (.num (.fin (st.table.length : Int))))

theorem visitElemsF_sound {f : EncSt → HVal → Except Err (Enc × EncSt)}
    (hf : VisitSoundP w cfg h0 f) (hfp : VisitPresP cfg f) :
    ∀ (l : List HVal) (st : EncSt) (es : List Enc) (st' : EncSt),
      HeapEvolves cfg h0 st.heap → TagInv cfg st →
      visitElemsF f st l = .ok (es, st') →
      HeapEvolves cfg h0 st'.heap ∧ TagInv cfg st' ∧
      List.Forall₂ (encRel cfg st'.heap) l es ∧
      (∀ (i : Nat) (c : Copy), st.table.length ≤ i → st'.table[i]? = some c →
        slotGood w cfg h0 st'.heap i c) := by
  intro l
  induction l with
  | nil =>
      intro st es st' hhe hti h
      simp only [visitElemsF, Except.ok.injEq, Prod.mk.injEq] at h
      obtain ⟨rfl, rfl⟩ := h
      refine ⟨hhe, hti, List.Forall₂.nil, ?_⟩
      intro i c hge hc
      have hnone : st.table[i]? = none := List.getElem?_eq_none_iff.mpr hge
      rw [hnone] at hc
      cases hc
  | cons v rest ih =>
      intro st es st' hhe hti h
      simp only [visitElemsF] at h
      cases hfv : f st v with
      | error e2 => simp only [hfv] at h; cases h
      | ok p =>
          obtain ⟨e1, st1⟩ := p
          simp only [hfv] at h
          cases hrest : visitElemsF f st1 rest with
          | error e2 => simp only [hrest] at h; cases h
          | ok q =>
              obtain ⟨es2, st2⟩ := q
              simp only [hrest] at h
              simp only [Except.ok.injEq, Prod.mk.injEq] at h
              obtain ⟨rfl, rfl⟩ := h
              obtain ⟨he1, ti1, rel1, slots1, -⟩ := hf st v e1 st1 hhe hti hfv
              obtain ⟨he2, ti2, rel2, slots2⟩ := ih st1 es2 st2 he1 ti1 hrest
              have hprest := visitElemsF_pres cfg hfp rest st1 es2 st2 hrest
              obtain ⟨hev12, ext2, htab2⟩ := hprest
              refine ⟨he2, ti2,
                List.Forall₂.cons (encRel_stable cfg hev12 rel1) rel2, ?_⟩
              intro i c hge hc
              by_cases hlt : i < st1.table.length
              · have hc1 : st1.table[i]? = some c := by
                  rw [htab2, List.getElem?_append_left hlt] at hc
                  exact hc
                exact slotGood_stable w cfg hev12 (slots1 i c hge hc1)
              · exact slots2 i c (Nat.le_of_not_lt hlt) hc

theorem visitFieldsF_sound {f : EncSt → HVal → Except Err (Enc × EncSt)}
    (hf : VisitSoundP w cfg h0 f) (hfp : VisitPresP cfg f) :
    ∀ (l : List (String × HVal)) (st : EncSt) (fs : List (String × Enc)) (st' : EncSt),
      HeapEvolves cfg h0 st.heap → TagInv cfg st →
      visitFieldsF f st l = .ok (fs, st') →
      HeapEvolves cfg h0 st'.heap ∧ TagInv cfg st' ∧
      List.Forall₂ (fun kv ke => kv.1 = ke.1 ∧ encRel cfg st'.heap kv.2 ke.2) l fs ∧
      (∀ (i : Nat) (c : Copy), st.table.length ≤ i → st'.table[i]? = some c →
        slotGood w cfg h0 st'.heap i c) := by
  intro l
  induction l with
  | nil =>
      intro st fs st' hhe hti h
      simp only [visitFieldsF, Except.ok.injEq, Prod.mk.injEq] at h
      obtain ⟨rfl, rfl⟩ := h
      refine ⟨hhe, hti, List.Forall₂.nil, ?_⟩
      intro i c hge hc
      have hnone : st.table[i]? = none := List.getElem?_eq_none_iff.mpr hge
      rw [hnone] at hc
      cases hc
  | cons kv rest ih =>
      obtain ⟨k, v⟩ := kv
      intro st fs st' hhe hti h
      simp only [visitFieldsF] at h
      cases hfv : f st v with
      | error e2 => simp only [hfv] at h; cases h
      | ok p =>
          obtain ⟨e1, st1⟩ := p
          simp only [hfv] at h
          cases hrest : visitFieldsF f st1 rest with
          | error e2 => simp only [hrest] at h; cases h
          | ok q =>
              obtain ⟨fs2, st2⟩ := q
              simp only [hrest] at h
              simp only [Except.ok.injEq, Prod.mk.injEq] at h
              obtain ⟨rfl, rfl⟩ := h
              obtain ⟨he1, ti1, rel1, slots1, -⟩ := hf st v e1 st1 hhe hti hfv
              obtain ⟨he2, ti2, rel2, slots2⟩ := ih st1 fs2 st2 he1 ti1 hrest
              have hprest := visitFieldsF_pres cfg hfp rest st1 fs2 st2 hrest
              obtain ⟨hev12, ext2, htab2⟩ := hprest
              refine ⟨he2, ti2,
                List.Forall₂.cons ⟨rfl, encRel_stable cfg hev12 rel1⟩ rel2, ?_⟩
              intro i c hge hc
              by_cases hlt : i < st1.table.length
              · have hc1 : st1.table[i]? = some c := by
                  rw [htab2, List.getElem?_append_left hlt] at hc
                  exact hc
                exact slotGood_stable w cfg hev12 (slots1 i c hge hc1)
              · exact slots2 i c (Nat.le_of_not_lt hlt) hc

theorem tagCheck_arr : tagCheck w cfg true objectProto
    = .ok (if cfg.revive then some "Array" else none) := by
  unfold tagCheck
  by_cases hr : cfg.revive <;> simp [hr]

theorem visitStep_sound (hU : UntaggedHeap cfg h0)
    {f : EncSt → HVal → Except Err (Enc × EncSt)}
    (hf : VisitSoundP w cfg h0 f) (hfp : VisitPresP cfg f)
    {st : EncSt} {n : Nat} {e : Enc} {st' : EncSt}
    (hhe : HeapEvolves cfg h0 st.heap) (hti : TagInv cfg st)
    (h : visitStep w cfg f st n = .ok (e, st')) :
    HeapEvolves cfg h0 st'.heap ∧ TagInv cfg st' ∧
    encRel cfg st'.heap (.ref n) e ∧
    (∀ (i : Nat) (c : Copy), st.table.length ≤ i → st'.table[i]? = some c →
      slotGood w cfg h0 st'.heap i c) ∧
    (∀ (o : HObj), st.heap[n]? = some o → o.isTagged cfg = false →
      e = .eref (.num (.fin (st.table.length : Int)))) := by
  unfold visitStep at h
  cases ho : st.heap[n]? with
  | none => simp only [ho] at h; cases h
  | some o =>
      simp only [ho] at h
      by_cases htag : o.isTagged cfg
      · -- already tagged: return the existing reference encoding
        rw [if_pos htag] at h
        simp only [Except.ok.injEq, Prod.mk.injEq] at h
        obtain ⟨rfl, rfl⟩ := h
        have hsome := hti.2.2 n o ho htag
        cases hit : idTag cfg st.heap n with
        | none => rw [hit] at hsome; cases hsome
        | some i =>
            obtain ⟨hnn, hlt, -⟩ := hti.1 n i hit
            obtain ⟨o2, ho2, hg2, -⟩ := idTag_isTagged cfg hit
            rw [ho] at ho2
            injection ho2 with ho2e
            subst ho2e
            refine ⟨hhe, hti, ⟨i, hit, hnn, ?_⟩, ?_, ?_⟩
            · unfold refOfTagged
              rw [hg2]
            · intro j c hge hc
              have hnone : st.table[j]? = none := List.getElem?_eq_none_iff.mpr hge
              rw [hnone] at hc
              cases hc
            · intro o' ho' hu'
              injection ho' with ho'e
              subst ho'e
              rw [htag] at hu'
              cases hu'
      · rw [if_neg htag] at h
        rw [Bool.not_eq_true] at htag
        cases o with
        | arr elems props =>
            cases htc : tagCheck w cfg true objectProto with
            | error e2 => simp only [htc] at h; cases h
            | ok tg =>
                simp only [htc] at h
                cases hv : visitElemsF f (tagStArr cfg st n elems props tg) elems with
                | error e2 => simp only [hv] at h; cases h
                | ok q =>
                    obtain ⟨es, st2⟩ := q
                    simp only [hv] at h
                    simp only [Except.ok.injEq, Prod.mk.injEq] at h
                    obtain ⟨rfl, rfl⟩ := h
                    -- the original's pristine form
                    obtain ⟨o0, ho0, hstep⟩ := forall₂_getElem?_right hhe n _ ho
                    have hoo : h0[n]? = some (.arr elems props) := by
                      rcases hstep with heq | ⟨hu0, j, heq⟩
                      · rw [← heq] at ho0; exact ho0
                      · rw [heq, isTagged_setTag_num] at htag; cases htag
                    have hti1 : TagInv cfg (tagStArr cfg st n elems props tg) :=
                      tagInv_tagStep cfg ho htag hti ⟨true, [], [], tg, n⟩ rfl
                    have hhe1 : HeapEvolves cfg h0 (tagStArr cfg st n elems props tg).heap :=
                      heapEvolves_trans cfg hhe (heapEvolves_set cfg ho htag st.table.length)
                    obtain ⟨hhe2, hti2, hrel2, hslots2⟩ :=
                      visitElemsF_sound w cfg h0 hf hfp elems _ es st2 hhe1 hti1 hv
                    obtain ⟨hevc, ext2, htab2⟩ := visitElemsF_pres cfg hfp elems _ es st2 hv
                    have hid1 : idTag cfg (tagStArr cfg st n elems props tg).heap n
                        = some (st.table.length : Int) := idTag_set_self cfg ho _
                    have hid2 : idTag cfg st2.heap n = some (st.table.length : Int) :=
                      idTag_stable cfg hevc hid1
                    have hst1len : (tagStArr cfg st n elems props tg).table.length
                        = st.table.length + 1 := by
                      show (st.table ++ [(⟨true, [], [], tg, n⟩ : Copy)]).length = _
                      simp
                    have hlen2 : st.table.length < st2.table.length := by
                      rw [htab2]
                      simp only [List.length_append, hst1len]
                      omega
                    have hphslot : st2.table[st.table.length]?
                        = some (⟨true, [], [], tg, n⟩ : Copy) := by
                      rw [htab2]
                      show ((st.table ++ [(⟨true, [], [], tg, n⟩ : Copy)]) ++ ext2)[st.table.length]?
                        = _
                      rw [List.getElem?_append_left (by simp)]
                      simp
                    obtain ⟨A2, B2, C2⟩ := hti2
                    refine ⟨hhe2, ⟨?_, ?_, ?_⟩,
                      ⟨(st.table.length : Int), hid2, by exact_mod_cast Nat.zero_le _, rfl⟩,
                      ?_, fun _ _ _ => rfl⟩
                    · -- tag-to-slot after finishing the copy
                      intro m i hi
                      obtain ⟨hnn, hlt2, c, hc, horig⟩ := A2 m i hi
                      refine ⟨hnn, by simpa [List.length_set] using hlt2, ?_⟩
                      by_cases hlen : i.toNat = st.table.length
                      · rw [hlen] at hc
                        rw [hphslot] at hc
                        injection hc with hce
                        refine ⟨⟨true, es, [], tg, n⟩, ?_, ?_⟩
                        · show (st2.table.set st.table.length _)[i.toNat]? = _
                          rw [hlen, List.getElem?_set_self hlen2]
                        · show n = m
                          rw [← horig, ← hce]
                      · refine ⟨c, ?_, horig⟩
                        show (st2.table.set st.table.length _)[i.toNat]? = _
                        rw [List.getElem?_set_ne (fun hh => hlen hh.symm)]
                        exact hc
                    · -- slot-to-tag
                      intro i c hc
                      by_cases hieq : i = st.table.length
                      · subst hieq
                        rw [List.getElem?_set_self hlen2] at hc
                        injection hc with hcc
                        subst hcc
                        exact hid2
                      · rw [List.getElem?_set_ne (fun hh => hieq hh.symm)] at hc
                        exact B2 i c hc
                    · exact C2
                    · -- all new slots are good
                      intro i c hge hc
                      by_cases hieq : i = st.table.length
                      · subst hieq
                        rw [List.getElem?_set_self hlen2] at hc
                        injection hc with hcc
                        subst hcc
                        have harr := tagCheck_arr w cfg
                        rw [htc] at harr
                        injection harr with hte
                        exact ⟨hid2, Or.inl ⟨elems, props, hoo, rfl, rfl, hte, hrel2⟩⟩
                      · have hge1 : (tagStArr cfg st n elems props tg).table.length ≤ i := by
                          rw [hst1len]; omega
                        rw [List.getElem?_set_ne (fun hh => hieq hh.symm)] at hc
                        exact hslots2 i c hge1 hc
        | obj fields proto =>
            cases htc : tagCheck w cfg false proto with
            | error e2 => simp only [htc] at h; cases h
            | ok tg =>
                simp only [htc] at h
                cases hv : visitFieldsF f (tagStObj cfg st n fields proto tg)
                    (setF fields cfg.refcode
                      (.atomv (.num (.fin (st.table.length : Int))))) with
                | error e2 => simp only [hv] at h; cases h
                | ok q =>
                    obtain ⟨fs, st2⟩ := q
                    simp only [hv] at h
                    simp only [Except.ok.injEq, Prod.mk.injEq] at h
                    obtain ⟨rfl, rfl⟩ := h
                    obtain ⟨o0, ho0, hstep⟩ := forall₂_getElem?_right hhe n _ ho
                    have hoo : h0[n]? = some (.obj fields proto) := by
                      rcases hstep with heq | ⟨hu0, j, heq⟩
                      · rw [← heq] at ho0; exact ho0
                      · rw [heq, isTagged_setTag_num] at htag; cases htag
                    have hlook : lookupF fields cfg.refcode = none := by
                      have hmem : HObj.obj fields proto ∈ h0 := List.getElem?_mem hoo
                      exact hU _ hmem
                    have hti1 : TagInv cfg (tagStObj cfg st n fields proto tg) :=
                      tagInv_tagStep cfg ho htag hti ⟨false, [], [], tg, n⟩ rfl
                    have hhe1 : HeapEvolves cfg h0 (tagStObj cfg st n fields proto tg).heap :=
                      heapEvolves_trans cfg hhe (heapEvolves_set cfg ho htag st.table.length)
                    obtain ⟨hhe2, hti2, hrel2, hslots2⟩ :=
                      visitFieldsF_sound w cfg h0 hf hfp _ _ fs st2 hhe1 hti1 hv
                    obtain ⟨hevc, ext2, htab2⟩ := visitFieldsF_pres cfg hfp _ _ fs st2 hv
                    have hid1 : idTag cfg (tagStObj cfg st n fields proto tg).heap n
                        = some (st.table.length : Int) := idTag_set_self cfg ho _
                    have hid2 : idTag cfg st2.heap n = some (st.table.length : Int) :=
                      idTag_stable cfg hevc hid1
                    have hst1len : (tagStObj cfg st n fields proto tg).table.length
                        = st.table.length + 1 := by
                      show (st.table ++ [(⟨false, [], [], tg, n⟩ : Copy)]).length = _
                      simp
                    have hlen2 : st.table.length < st2.table.length := by
                      rw [htab2]
                      simp only [List.length_append, hst1len]
                      omega
                    have hphslot : st2.table[st.table.length]?
                        = some (⟨false, [], [], tg, n⟩ : Copy) := by
                      rw [htab2]
                      show ((st.table ++ [(⟨false, [], [], tg, n⟩ : Copy)]) ++ ext2)[st.table.length]?
                        = _
                      rw [List.getElem?_append_left (by simp)]
                      simp
                    obtain ⟨A2, B2, C2⟩ := hti2
                    refine ⟨hhe2, ⟨?_, ?_, ?_⟩,
                      ⟨(st.table.length : Int), hid2, by exact_mod_cast Nat.zero_le _, rfl⟩,
                      ?_, fun _ _ _ => rfl⟩
                    · intro m i hi
                      obtain ⟨hnn, hlt2, c, hc, horig⟩ := A2 m i hi
                      refine ⟨hnn, by simpa [List.length_set] using hlt2, ?_⟩
                      by_cases hlen : i.toNat = st.table.length
                      · rw [hlen] at hc
                        rw [hphslot] at hc
                        injection hc with hce
                        refine ⟨⟨false, [], fs, tg, n⟩, ?_, ?_⟩
                        · show (st2.table.set st.table.length _)[i.toNat]? = _
                          rw [hlen, List.getElem?_set_self hlen2]
                        · show n = m
                          rw [← horig, ← hce]
                      · refine ⟨c, ?_, horig⟩
                        show (st2.table.set st.table.length _)[i.toNat]? = _
                        rw [List.getElem?_set_ne (fun hh => hlen hh.symm)]
                        exact hc
                    · intro i c hc
                      by_cases hieq : i = st.table.length
                      · subst hieq
                        rw [List.getElem?_set_self hlen2] at hc
                        injection hc with hcc
                        subst hcc
                        exact hid2
                      · rw [List.getElem?_set_ne (fun hh => hieq hh.symm)] at hc
                        exact B2 i c hc
                    · exact C2
                    · intro i c hge hc
                      by_cases hieq : i = st.table.length
                      · subst hieq
                        rw [List.getElem?_set_self hlen2] at hc
                        injection hc with hcc
                        subst hcc
                        rw [setF_eq_append _ _ _ hlook] at hrel2
                        exact ⟨hid2, Or.inr ⟨fields, proto, hoo, rfl, rfl, htc, hlook, hrel2⟩⟩
                      · have hge1 : (tagStObj cfg st n fields proto tg).table.length ≤ i := by
                          rw [hst1len]; omega
                        rw [List.getElem?_set_ne (fun hh => hieq hh.symm)] at hc
                        exact hslots2 i c hge1 hc

/-- The full soundness of `visit`, by induction on fuel. -/
theorem visit_sound (hU : UntaggedHeap cfg h0) :
    ∀ fuel : Nat, VisitSoundP w cfg h0 (visit w cfg fuel) := by
  intro fuel
  induction fuel with
  | zero =>
      intro st v e st' hhe hti h
      cases v with
      | atomv a =>
          rw [visit_atom] at h
          cases hha : handleAtom a with
          | error e2 => simp only [hha] at h; cases h
          | ok enc =>
              simp only [hha] at h
              simp only [Except.ok.injEq, Prod.mk.injEq] at h
              obtain ⟨rfl, rfl⟩ := h
              refine ⟨hhe, hti, hha, ?_, ?_⟩
              · intro i c hge hc
                have hnone : st.table[i]? = none := List.getElem?_eq_none_iff.mpr hge
                rw [hnone] at hc
                cases hc
              · intro m o hveq
                cases hveq
      | ref m => rw [visit_zero_ref] at h; cases h
  | succ fuel ih =>
      intro st v e st' hhe hti h
      cases v with
      | atomv a =>
          rw [visit_atom] at h
          cases hha : handleAtom a with
          | error e2 => simp only [hha] at h; cases h
          | ok enc =>
              simp only [hha] at h
              simp only [Except.ok.injEq, Prod.mk.injEq] at h
              obtain ⟨rfl, rfl⟩ := h
              refine ⟨hhe, hti, hha, ?_, ?_⟩
              · intro i c hge hc
                have hnone : st.table[i]? = none := List.getElem?_eq_none_iff.mpr hge
                rw [hnone] at hc
                cases hc
              · intro m o hveq
                cases hveq
      | ref m =>
          rw [visit_succ_ref] at h
          obtain ⟨c1, c2, c3, c4, c5⟩ :=
            visitStep_sound w cfg h0 hU ih (visit_pres w cfg fuel) hhe hti h
          refine ⟨c1, c2, c3, c4, ?_⟩
          intro m' o hveq ho hu
          cases hveq
          exact c5 o ho hu

end Sound

/-! ## What a successful stringify guarantees -/

section StringifySound
variable (w : Window) (cfg : Config)

/-- The tag/slot invariant trivially holds on a fresh untagged heap with an
empty table. -/
theorem tagInv_init {h0 : Heap} (hU : UntaggedHeap cfg h0) : TagInv cfg ⟨h0, []⟩ := by
  refine ⟨?_, ?_, ?_⟩
  · intro m i hi
    unfold idTag at hi
    cases hm : h0[m]? with
    | none => simp only [hm] at hi; cases hi
    | some o =>
        simp only [hm] at hi
        rw [hU o (List.getElem?_mem hm)] at hi
        cases hi
  · intro i c hc
    simp at hc
  · intro m o hm ht
    rw [isTagged_of_getTag_none cfg (hU o (List.getElem?_mem hm))] at ht
    cases ht

/-- Everything the composite path of a successful `stringify` guarantees:
the wire and final heap are produced from an internal state in which the
tag/slot invariant holds, every slot is certified, and the root sits in
slot 0. -/
theorem stringify_sound {h0 : Heap} {r : Nat} {wire : JVal} {h' : Heap}
    (hU : UntaggedHeap cfg h0)
    (hs : stringify w cfg h0 (.ref r) = .ok (wire, h')) :
    ∃ st : EncSt,
      wire = .jarr (st.table.map (fun c => jsonOfCopy cfg (cleanCopy cfg c))) ∧
      h' = st.table.foldl (fun hh c => cleanOrig cfg hh c.orig) st.heap ∧
      HeapEvolves cfg h0 st.heap ∧ TagInv cfg st ∧
      (∀ (i : Nat) (c : Copy), st.table[i]? = some c → slotGood w cfg h0 st.heap i c) ∧
      idTag cfg st.heap r = some 0 ∧ 0 < st.table.length := by
  unfold stringify at hs
  cases hv : visit w cfg (countUntagged cfg h0 + 1) ⟨h0, []⟩ (.ref r) with
  | error e => simp only [hv] at hs; cases hs
  | ok q =>
      obtain ⟨e1, st⟩ := q
      simp only [hv] at hs
      simp only [Except.ok.injEq, Prod.mk.injEq] at hs
      obtain ⟨rfl, rfl⟩ := hs
      obtain ⟨hhe, hti, hrel, hslots, hrooteq⟩ :=
        visit_sound w cfg h0 hU _ ⟨h0, []⟩ (.ref r) e1 st
          (heapEvolves_refl cfg h0) (tagInv_init cfg hU) hv
      obtain ⟨i, hit, hnn, herefeq⟩ := hrel
      obtain ⟨o', hro', -, -⟩ := idTag_isTagged cfg hit
      obtain ⟨o0, ho0, -⟩ := forall₂_getElem?_right hhe r o' hro'
      have hu0 : o0.isTagged cfg = false :=
        isTagged_of_getTag_none cfg (hU o0 (List.getElem?_mem ho0))
      have he1eq := hrooteq r o0 rfl ho0 hu0
      rw [he1eq] at herefeq
      injection herefeq with haeq
      injection haeq with hneq
      injection hneq with hieq
      have hi0 : i = 0 := by
        simp at hieq
        omega
      subst hi0
      refine ⟨st, rfl, rfl, hhe, hti, ?_, hit, ?_⟩
      · intro i c hc
        exact hslots i c (Nat.zero_le i) hc
      · obtain ⟨-, hlt, -⟩ := hti.1 r 0 hit
        omega

/-! ### The finalization fold -/

theorem cleanOrig_length (h : Heap) (m : Nat) : (cleanOrig cfg h m).length = h.length := by
  unfold cleanOrig
  cases hm : h[m]? with
  | none => rfl
  | some o =>
      show (if cfg.cleanup then h.set m (o.delTag cfg)
            else h.set m (o.setTag cfg (.atomv .null))).length = h.length
      by_cases hcl : cfg.cleanup
      · rw [if_pos hcl]
        exact List.length_set h m _
      · rw [if_neg hcl]
        exact List.length_set h m _

theorem cleanOrig_ne (h : Heap) (m : Nat) {n : Nat} (hne : m ≠ n) :
    (cleanOrig cfg h m)[n]? = h[n]? := by
  unfold cleanOrig
  cases hm : h[m]? with
  | none => rfl
  | some o =>
      show (if cfg.cleanup then h.set m (o.delTag cfg)
            else h.set m (o.setTag cfg (.atomv .null)))[n]? = h[n]?
      by_cases hcl : cfg.cleanup
      · rw [if_pos hcl]
        exact List.getElem?_set_ne hne
      · rw [if_neg hcl]
        exact List.getElem?_set_ne hne

theorem cleanOrig_hit (h : Heap) (m : Nat) {o : HObj} (hm : h[m]? = some o) :
    (cleanOrig cfg h m)[m]? =
      some (if cfg.cleanup then o.delTag cfg else o.setTag cfg (.atomv .null)) := by
  unfold cleanOrig
  rw [hm]
  show (if cfg.cleanup then h.set m (o.delTag cfg)
        else h.set m (o.setTag cfg (.atomv .null)))[m]? = _
  have hlt : m < h.length := (List.getElem?_eq_some_iff.mp hm).1
  by_cases hcl : cfg.cleanup
  · rw [if_pos hcl, List.getElem?_set_self hlt, if_pos hcl]
  · rw [if_neg hcl, List.getElem?_set_self hlt, if_neg hcl]

theorem foldl_cleanOrig_length (cs : List Copy) (h : Heap) :
    (cs.foldl (fun hh c => cleanOrig cfg hh c.orig) h).length = h.length := by
  induction cs generalizing h with
  | nil => rfl
  | cons c rest ih => rw [List.foldl_cons, ih, cleanOrig_length]

theorem foldl_cleanOrig_ne (cs : List Copy) (h : Heap) (n : Nat)
    (hn : ∀ c ∈ cs, c.orig ≠ n) :
    (cs.foldl (fun hh c => cleanOrig cfg hh c.orig) h)[n]? = h[n]? := by
  induction cs generalizing h with
  | nil => rfl
  | cons c rest ih =>
      rw [List.foldl_cons, ih _ (fun c' hc' => hn c' (List.mem_cons_of_mem c hc'))]
      exact cleanOrig_ne cfg h c.orig (hn c (List.mem_cons_self c rest))

theorem foldl_cleanOrig_hit (cs : List Copy) (h : Heap) (n : Nat) (o : HObj)
    (ho : h[n]? = some o) (hnd : (cs.map Copy.orig).Nodup)
    (hmem : n ∈ cs.map Copy.orig) :
    (cs.foldl (fun hh c => cleanOrig cfg hh c.orig) h)[n]? =
      some (if cfg.cleanup then o.delTag cfg else o.setTag cfg (.atomv .null)) := by
  induction cs generalizing h o with
  | nil => simp at hmem
  | cons c rest ih =>
      rw [List.map_cons, List.nodup_cons] at hnd
      rw [List.map_cons, List.mem_cons] at hmem
      rw [List.foldl_cons]
      rcases hmem with heq | hmem2
      · subst heq
        rw [foldl_cleanOrig_ne cfg rest _ c.orig
            (fun c' hc' hcon => hnd.1 (hcon ▸ List.mem_map_of_mem Copy.orig hc'))]
        exact cleanOrig_hit cfg h c.orig ho
      · have hne : c.orig ≠ n := by
          intro hcon
          exact hnd.1 (hcon ▸ hmem2)
        have ho1 : (cleanOrig cfg h c.orig)[n]? = some o := by
          rw [cleanOrig_ne cfg h c.orig hne]
          exact ho
        exact ih _ _ ho1 hnd.2 hmem2

/-- The slot originals are pairwise distinct. -/
theorem origs_nodup {st : EncSt} (hti : TagInv cfg st) :
    (st.table.map Copy.orig).Nodup := by
  have hinj : ∀ (i j : Nat) (a : Nat),
      (st.table.map Copy.orig)[i]? = some a → (st.table.map Copy.orig)[j]? = some a →
      i = j := by
    intro i j a hi hj
    rw [List.getElem?_map] at hi hj
    cases hci : st.table[i]? with
    | none => rw [hci] at hi; cases hi
    | some ci =>
        cases hcj : st.table[j]? with
        | none => rw [hcj] at hj; cases hj
        | some cj =>
            rw [hci] at hi
            rw [hcj] at hj
            simp at hi hj
            have h1 := hti.2.1 i ci hci
            have h2 := hti.2.1 j cj hcj
            rw [hi] at h1
            rw [hj] at h2
            rw [h1] at h2
            simp only [Option.some.injEq] at h2
            omega
  rw [List.nodup_iff_injective_get]
  intro a b hab
  have h1 : (st.table.map Copy.orig)[a.1]? = some ((st.table.map Copy.orig).get a) := by
    simp [List.getElem?_eq_getElem a.2]
  have h2 : (st.table.map Copy.orig)[b.1]? = some ((st.table.map Copy.orig).get b) := by
    simp [List.getElem?_eq_getElem b.2]
  rw [hab] at h1
  exact Fin.ext (hinj a.1 b.1 _ h1 h2)

end StringifySound

/-! ## The decode pass on an honestly produced wire -/

section MarkerFacts
variable (cfg : Config)

theorem pfx_ne_refcode : cfg.pfx ≠ cfg.refcode :=
  self_ne_append cfg.pfx (by decide)

theorem pfx_ne_origcode : cfg.pfx ≠ cfg.origcode :=
  self_ne_append cfg.pfx (by decide)

theorem pfx_ne_buildcode : cfg.pfx ≠ cfg.buildcode :=
  self_ne_append cfg.pfx (by decide)

theorem pfx_ne_valuecode : cfg.pfx ≠ cfg.valuecode :=
  self_ne_append cfg.pfx (by decide)

theorem buildcode_ne_valuecode : cfg.buildcode ≠ cfg.valuecode :=
  append_ne_of_ne cfg.pfx (by decide)

theorem refcode_ne_origcode : cfg.refcode ≠ cfg.origcode :=
  append_ne_of_ne cfg.pfx (by decide)

end MarkerFacts

/-- A key appears in no entry of the list, so lookup misses. -/
theorem lookupF_eq_none {α : Type} (l : List (String × α)) (k : String)
    (h : ∀ kv ∈ l, kv.1 ≠ k) : lookupF l k = none := by
  induction l with
  | nil => rfl
  | cons hd t ih =>
      obtain ⟨k', v'⟩ := hd
      rw [lookupF_cons, if_neg (h (k', v') (List.mem_cons_self _ t))]
      exact ih (fun kv hkv => h kv (List.mem_cons_of_mem _ hkv))

/-- Keys transfer across a key-preserving `Forall₂`. -/
theorem lookupF_none_of_forall₂ {α β : Type} {R : α → β → Prop}
    {l1 : List (String × α)} {l2 : List (String × β)}
    (h : List.Forall₂ (fun kv ke => kv.1 = ke.1 ∧ R kv.2 ke.2) l1 l2)
    {k : String} (hk : lookupF l1 k = none) : lookupF l2 k = none := by
  induction h with
  | nil => rfl
  | @cons x y t1 t2 hr ht ih =>
      obtain ⟨x1, x2⟩ := x
      obtain ⟨y1, y2⟩ := y
      rw [lookupF_cons] at hk ⊢
      have hkey : x1 = y1 := hr.1
      by_cases hx : x1 = k
      · rw [if_pos hx] at hk; cases hk
      · rw [if_neg hx] at hk
        rw [if_neg (fun hc => hx (hkey.trans hc))]
        exact ih hk

/-- Splitting a key-preserving `Forall₂` whose left side ends in one entry. -/
theorem forall₂_append_singleton {α β : Type} {R : α → β → Prop}
    {l1 : List α} {x : α} {l2 : List β}
    (h : List.Forall₂ R (l1 ++ [x]) l2) :
    ∃ l2a y, l2 = l2a ++ [y] ∧ List.Forall₂ R l1 l2a ∧ R x y := by
  induction l1 generalizing l2 with
  | nil =>
      cases h with
      | cons hr ht =>
          cases ht
          exact ⟨[], _, rfl, List.Forall₂.nil, hr⟩
  | cons a t ih =>
      cases h with
      | cons hr ht =>
          obtain ⟨l2a, y, rfl, hf, hxy⟩ := ih ht
          exact ⟨_ :: l2a, y, rfl, List.Forall₂.cons hr hf, hxy⟩

/-- How a source value relates to its decoded counterpart: references become
table-slot references via the identity tag, safe atoms survive, non-finite
numbers have collapsed to `null` on the wire. -/
def decRel (cfg : Config) (h : Heap) : HVal → DVal → Prop
  | .ref m, d => ∃ i : Int, idTag cfg h m = some i ∧ 0 ≤ i ∧ d = .dref i.toNat
  | .atomv .null, d => d = .datom .null
  | .atomv .undef, d => d = .datom .undef
  | .atomv (.bool b), d => d = .datom (.bool b)
  | .atomv (.str s), d => d = .datom (.str s)
  | .atomv (.num (.fin v)), d => d = .datom (.num (.fin v))
  | .atomv (.num _), d => d = .datom .null
  | .atomv (.date iso), d => d = .datom (.date iso)
  | .atomv .fn, _ => False

section DecodeSound
variable (w : Window) (cfg : Config)

/-- Decoding one field of a slot: the wire image of a certified encoding
decodes without error to the `decRel`-image of the source value. -/
theorem decodeField_of_encRel {h1 : Heap} {len : Nat}
    (hDate : windowLookup w "Date" = some .dateCtor)
    (hbound : ∀ (m : Nat) (i : Int), idTag cfg h1 m = some i → i < (len : Int))
    {v : HVal} {e : Enc} (hr : encRel cfg h1 v e) :
    ∃ d, decodeField w cfg len (jsonOfEnc cfg e) = .ok d ∧ decRel cfg h1 v d := by
  cases v with
  | ref m =>
      obtain ⟨i, hit, hnn, rfl⟩ := hr
      refine ⟨.dref i.toNat, ?_, i, hit, hnn, rfl⟩
      have hlt := hbound m i hit
      simp [jsonOfEnc, jsonOfAtom, decodeField, decodeEnc, lookupF_cons, hnn, hlt]
  | atomv a =>
      cases a with
      | null =>
          have hr' : (Except.ok (Enc.atom JSAtom.null) : Except Err Enc) = .ok e := hr
          injection hr' with he
          subst he
          exact ⟨.datom .null, rfl, rfl⟩
      | undef =>
          have hr' : (Except.ok (Enc.eref (.num (.fin (-1)))) : Except Err Enc) = .ok e := hr
          injection hr' with he
          subst he
          refine ⟨.datom .undef, ?_, rfl⟩
          have hneg : ¬((0 : Int) ≤ -1 ∧ (-1 : Int) < (len : Int)) := by omega
          simp [jsonOfEnc, jsonOfAtom, decodeField, decodeEnc, lookupF_cons, hneg]
      | bool b =>
          have hr' : (Except.ok (Enc.atom (JSAtom.bool b)) : Except Err Enc) = .ok e := hr
          injection hr' with he
          subst he
          exact ⟨.datom (.bool b), rfl, rfl⟩
      | str s =>
          have hr' : (Except.ok (Enc.atom (JSAtom.str s)) : Except Err Enc) = .ok e := hr
          injection hr' with he
          subst he
          exact ⟨.datom (.str s), rfl, rfl⟩
      | num nn =>
          cases nn with
          | fin v =>
              have hr' : (Except.ok (Enc.atom (JSAtom.num (JSNum.fin v))) : Except Err Enc)
                  = .ok e := hr
              injection hr' with he
              subst he
              exact ⟨.datom (.num (.fin v)), rfl, rfl⟩
          | nan =>
              have hr' : (Except.ok (Enc.atom (JSAtom.num JSNum.nan)) : Except Err Enc)
                  = .ok e := hr
              injection hr' with he
              subst he
              exact ⟨.datom .null, rfl, rfl⟩
          | inf =>
              have hr' : (Except.ok (Enc.atom (JSAtom.num JSNum.inf)) : Except Err Enc)
                  = .ok e := hr
              injection hr' with he
              subst he
              exact ⟨.datom .null, rfl, rfl⟩
          | ninf =>
              have hr' : (Except.ok (Enc.atom (JSAtom.num JSNum.ninf)) : Except Err Enc)
                  = .ok e := hr
              injection hr' with he
              subst he
              exact ⟨.datom .null, rfl, rfl⟩
      | date iso =>
          have hr' : (Except.ok (Enc.builder "Date" iso) : Except Err Enc) = .ok e := hr
          injection hr' with he
          subst he
          refine ⟨.datom (.date iso), ?_, rfl⟩
          simp [jsonOfEnc, decodeField, decodeEnc, build, lookupF_cons,
            Ne.symm (pfx_ne_buildcode cfg), Ne.symm (pfx_ne_valuecode cfg), hDate,
            buildcode_ne_valuecode cfg, Ne.symm (buildcode_ne_valuecode cfg)]
      | fn =>
          have hr' : (Except.error (Err.resurrectErr "Can\x27t serialize functions.")
              : Except Err Enc) = .ok e := hr
          cases hr'

end DecodeSound

theorem cleanKey_ne_self (pfx k : String) (h : cleanKey pfx k = true) : k ≠ pfx := by
  intro hc
  exact cleanKey_ne pfx k h "" (by rw [hc, String.append_empty])

/-- How a certified table slot relates to its decoded object: the one-level
image of the original node, with the type tag kept or deleted per
configuration and the prototype reattached when the slot carried a tag. -/
def copyDec (w : Window) (cfg : Config) (h0 h1 : Heap) (c : Copy) (d : DObj) : Prop :=
  (∃ elems props ds, h0[c.orig]? = some (.arr elems props) ∧ d = .darr ds ∧
     List.Forall₂ (decRel cfg h1) elems ds) ∨
  (∃ fields proto dfs, h0[c.orig]? = some (.obj fields proto) ∧
     d = .dobj ((match c.tag with
                 | some name => if cfg.cleanup then [] else [(cfg.pfx, DVal.datom (.str name))]
                 | none => []) ++ dfs)
         (match c.tag with
          | some _ => proto
          | none => objectProto) ∧
     List.Forall₂ (fun kv kd => kv.1 = kd.1 ∧ decRel cfg h1 kv.2 kd.2) fields dfs)

section DecodeSound2
variable (w : Window) (cfg : Config)

theorem decodeElemsList_of_forall₂ {h1 : Heap} {len : Nat}
    (hDate : windowLookup w "Date" = some .dateCtor)
    (hbound : ∀ (m : Nat) (i : Int), idTag cfg h1 m = some i → i < (len : Int))
    {elems : List HVal} {es : List Enc}
    (hrel : List.Forall₂ (encRel cfg h1) elems es) :
    ∃ ds, decodeElemsList w cfg len (es.map (jsonOfEnc cfg)) = .ok ds ∧
          List.Forall₂ (decRel cfg h1) elems ds := by
  induction hrel with
  | nil => exact ⟨[], rfl, List.Forall₂.nil⟩
  | @cons v e tv te hr ht ih =>
      obtain ⟨d, hd, hdr⟩ := decodeField_of_encRel w cfg hDate hbound hr
      obtain ⟨ds, hds, hdsr⟩ := ih
      refine ⟨d :: ds, ?_, List.Forall₂.cons hdr hdsr⟩
      simp only [List.map_cons, decodeElemsList, hd, hds]

theorem decodeFieldsList_of_forall₂ {h1 : Heap} {len : Nat}
    (hDate : windowLookup w "Date" = some .dateCtor)
    (hbound : ∀ (m : Nat) (i : Int), idTag cfg h1 m = some i → i < (len : Int))
    {fields : List (String × HVal)} {fs : List (String × Enc)}
    (hrel : List.Forall₂ (fun kv ke => kv.1 = ke.1 ∧ encRel cfg h1 kv.2 ke.2) fields fs) :
    ∃ dfs, decodeFieldsList w cfg len (fs.map (fun ke => (ke.1, jsonOfEnc cfg ke.2)))
        = .ok dfs ∧
      List.Forall₂ (fun kv kd => kv.1 = kd.1 ∧ decRel cfg h1 kv.2 kd.2) fields dfs := by
  induction hrel with
  | nil => exact ⟨[], rfl, List.Forall₂.nil⟩
  | @cons kv ke tv te hr ht ih =>
      obtain ⟨d, hd, hdr⟩ := decodeField_of_encRel w cfg hDate hbound hr.2
      obtain ⟨dfs, hdfs, hdfsr⟩ := ih
      refine ⟨(kv.1, d) :: dfs, ?_, List.Forall₂.cons ⟨rfl, hdr⟩ hdfsr⟩
      obtain ⟨k2, e2⟩ := ke
      have hk : kv.1 = k2 := hr.1
      simp only [List.map_cons, decodeFieldsList, hd, hdfs, hk]

theorem tagCheck_ok_some {p : Proto} {name : String}
    (htc : tagCheck w cfg false p = .ok (some name)) :
    cfg.revive = true ∧ name = p.ctorName ∧
    ∃ entry, windowLookup w p.ctorName = some entry ∧ entry.protoOf = p := by
  unfold tagCheck at htc
  by_cases hr : cfg.revive = true
  · rw [if_pos hr, if_neg Bool.false_ne_true] at htc
    by_cases h1 : p.ctorName = ""
    · rw [if_pos h1] at htc
      cases htc
    · rw [if_neg h1] at htc
      by_cases h2 : p.ctorName = "Object"
      · rw [if_pos h2] at htc
        injection htc with he
        cases he
      · rw [if_neg h2] at htc
        cases hl : windowLookup w p.ctorName with
        | none => simp only [hl] at htc; cases htc
        | some entry =>
            simp only [hl] at htc
            by_cases hp : entry.protoOf = p
            · rw [if_pos hp] at htc
              injection htc with he
              injection he with he2
              exact ⟨hr, he2.symm, entry, rfl, hp⟩
            · rw [if_neg hp] at htc
              cases htc
  · rw [if_neg hr] at htc
    injection htc with he
    cases he

/-- Decoding and reviving one honestly produced slot succeeds and yields the
decoded image of the original node. -/
theorem processSlot_of_slotGood {h0 h1 : Heap} {len : Nat}
    (hCK : CleanKeys cfg h0)
    (hDate : windowLookup w "Date" = some .dateCtor)
    (hbound : ∀ (m : Nat) (i : Int), idTag cfg h1 m = some i → i < (len : Int))
    {i : Nat} {c : Copy} (hg : slotGood w cfg h0 h1 i c) :
    ∃ d, processSlot w cfg len (jsonOfCopy cfg (cleanCopy cfg c)) = .ok d ∧
         copyDec w cfg h0 h1 c d := by
  obtain ⟨hid, hcase⟩ := hg
  rcases hcase with ⟨elems, props, hoo, hisarr, hfl, htg, hrel⟩ |
    ⟨fields, proto, hoo, hisarr, hel, htc, hlook, hrel⟩
  · -- array slot
    obtain ⟨ds, hds, hdsr⟩ := decodeElemsList_of_forall₂ w cfg hDate hbound hrel
    refine ⟨.darr ds, ?_, Or.inl ⟨elems, props, ds, hoo, rfl, hdsr⟩⟩
    have hjson : jsonOfCopy cfg (cleanCopy cfg c) = .jarr (c.elems.map (jsonOfEnc cfg)) := by
      simp [jsonOfCopy, cleanCopy, hisarr]
    rw [hjson]
    unfold processSlot decodeSlot
    simp only [hds]
    by_cases hr : cfg.revive = true
    · simp [hr, fixPrototype]
    · simp [hr]
  · -- object slot
    obtain ⟨l2a, y, hfe, hfa, hy⟩ := forall₂_append_singleton hrel
    obtain ⟨y1, y2⟩ := y
    have hy1 : y1 = cfg.refcode := hy.1.symm
    subst hy1
    have hl2aref : lookupF l2a cfg.refcode = none := lookupF_none_of_forall₂ hfa hlook
    have hfieldmem : ∀ kv ∈ fields, cleanKey cfg.pfx kv.1 = true := by
      intro kv hkv
      exact hCK _ (List.getElem?_mem hoo) kv.1
        (List.mem_map_of_mem Prod.fst hkv)
    have horigf : lookupF fields cfg.origcode = none :=
      lookupF_eq_none _ _ (fun kv hkv =>
        cleanKey_ne cfg.pfx kv.1 (hfieldmem kv hkv) "original")
    have hpfxf : lookupF fields cfg.pfx = none :=
      lookupF_eq_none _ _ (fun kv hkv =>
        cleanKey_ne_self cfg.pfx kv.1 (hfieldmem kv hkv))
    have hl2aorig : lookupF l2a cfg.origcode = none := lookupF_none_of_forall₂ hfa horigf
    have hl2apfx : lookupF l2a cfg.pfx = none := lookupF_none_of_forall₂ hfa hpfxf
    have hclean : cleanCopy cfg c = { c with fields := l2a } := by
      unfold cleanCopy
      rw [hfe, delF_append_singleton _ _ _ hl2aref, delF_of_lookupF_none _ _ hl2aorig]
    obtain ⟨dfs, hdfs, hdfsr⟩ := decodeFieldsList_of_forall₂ w cfg hDate hbound hfa
    have hdfspfx : lookupF dfs cfg.pfx = none := lookupF_none_of_forall₂ hdfsr hpfxf
    cases htag : c.tag with
    | none =>
        refine ⟨.dobj dfs objectProto, ?_, Or.inr ⟨fields, proto, dfs, hoo, by simp [htag], hdfsr⟩⟩
        have hjson : jsonOfCopy cfg (cleanCopy cfg c)
            = .jobj (l2a.map (fun ke => (ke.1, jsonOfEnc cfg ke.2))) := by
          simp [jsonOfCopy, hclean, hisarr, htag]
        rw [hjson]
        unfold processSlot decodeSlot
        simp only [hdfs]
        by_cases hr : cfg.revive = true
        · simp [hr, fixPrototype, hdfspfx]
        · simp [hr]
    | some name =>
        obtain ⟨hrev, hname, entry, hl, hproto⟩ := tagCheck_ok_some w cfg (htag ▸ htc)
        refine ⟨.dobj ((if cfg.cleanup then [] else [(cfg.pfx, DVal.datom (.str name))]) ++ dfs)
            proto, ?_, Or.inr ⟨fields, proto, dfs, hoo, by simp [htag], hdfsr⟩⟩
        have hjson : jsonOfCopy cfg (cleanCopy cfg c)
            = .jobj ((cfg.pfx, JVal.jstr name)
                :: l2a.map (fun ke => (ke.1, jsonOfEnc cfg ke.2))) := by
          simp [jsonOfCopy, hclean, hisarr, htag]
        rw [hjson]
        unfold processSlot decodeSlot
        have hdl : decodeFieldsList w cfg len ((cfg.pfx, JVal.jstr name)
            :: l2a.map (fun ke => (ke.1, jsonOfEnc cfg ke.2)))
            = .ok ((cfg.pfx, DVal.datom (.str name)) :: dfs) := by
          simp only [decodeFieldsList, decodeField, hdfs]
        simp only [hdl, hrev, if_pos]
        have hlf : lookupF ((cfg.pfx, DVal.datom (JSAtom.str name)) :: dfs) cfg.pfx
            = some (DVal.datom (JSAtom.str name)) := by
          simp [lookupF]
        have hwl : windowLookup w name = some entry := hname ▸ hl
        simp only [fixPrototype, hlf, hwl, hproto]
        by_cases hcl : cfg.cleanup = true
        · simp [hcl, delF]
        · simp [hcl]

theorem decodeSlots_of_slotGood {h0 h1 : Heap} {len : Nat}
    (hCK : CleanKeys cfg h0)
    (hDate : windowLookup w "Date" = some .dateCtor)
    (hbound : ∀ (m : Nat) (i : Int), idTag cfg h1 m = some i → i < (len : Int))
    (table : List Copy) (k : Nat)
    (hgood : ∀ (i : Nat) (c : Copy), table[i]? = some c → slotGood w cfg h0 h1 (k + i) c) :
    ∃ ds, decodeSlots w cfg len (table.map (fun c => jsonOfCopy cfg (cleanCopy cfg c)))
        = .ok ds ∧ List.Forall₂ (copyDec w cfg h0 h1) table ds := by
  induction table generalizing k with
  | nil => exact ⟨[], rfl, List.Forall₂.nil⟩
  | cons c rest ih =>
      have hc : slotGood w cfg h0 h1 (k + 0) c := hgood 0 c (by simp)
      obtain ⟨d, hd, hdr⟩ := processSlot_of_slotGood w cfg hCK hDate hbound hc
      obtain ⟨ds, hds, hdsr⟩ := ih (k + 1) (fun i cc hcc => by
        have hg := hgood (i + 1) cc (by simpa using hcc)
        have harith : k + (i + 1) = k + 1 + i := by omega
        exact harith ▸ hg)
      refine ⟨d :: ds, ?_, List.Forall₂.cons hdr hdsr⟩
      simp only [List.map_cons, decodeSlots, hd, hds]

/-- The round trip: under the documented preconditions, resurrecting the
wire output of `stringify` succeeds, rebuilds one decoded slot per table
slot related to it by `copyDec`, and returns a reference to slot 0, the
image of the root. -/
theorem resurrect_of_stringify {h0 : Heap} {r : Nat} {wire : JVal} {h' : Heap}
    (hU : UntaggedHeap cfg h0) (hCK : CleanKeys cfg h0)
    (hDate : windowLookup w "Date" = some .dateCtor)
    (hs : stringify w cfg h0 (.ref r) = .ok (wire, h')) :
    ∃ (h1 : Heap) (tbl : List Copy) (ds : List DObj),
      resurrect w cfg wire = .ok (ds, .dref 0) ∧
      List.Forall₂ (copyDec w cfg h0 h1) tbl ds ∧
      HeapEvolves cfg h0 h1 ∧ TagInv cfg ⟨h1, tbl⟩ ∧
      (∀ (i : Nat) (c : Copy), tbl[i]? = some c → slotGood w cfg h0 h1 i c) ∧
      idTag cfg h1 r = some 0 := by
  obtain ⟨st, hwire, hh2, hhe, hti, hslots, hroot, hlen⟩ := stringify_sound w cfg hU hs
  have hbound : ∀ (m : Nat) (i : Int), idTag cfg st.heap m = some i →
      i < (((st.table.map (fun c => jsonOfCopy cfg (cleanCopy cfg c))).length : Nat) : Int) := by
    intro m i hi
    have hb := (hti.1 m i hi).2.1
    simpa using hb
  obtain ⟨ds, hds, hdsr⟩ := decodeSlots_of_slotGood w cfg hCK hDate hbound st.table 0
    (fun i c hc => by rw [Nat.zero_add]; exact hslots i c hc)
  refine ⟨st.heap, st.table, ds, ?_, hdsr, hhe, ?_, hslots, hroot⟩
  · rw [hwire]
    unfold resurrect
    simp only [hds]
    have hne : (st.table.map (fun c => jsonOfCopy cfg (cleanCopy cfg c))).length ≠ 0 := by
      simp only [List.length_map]
      omega
    simp [hne]
    intro hnil
    rw [hnil] at hlen
    simp at hlen
  · exact hti

end DecodeSound2

/-! ## Preservation of heap well-formedness along the tagging evolution -/

theorem setF_vals_sub {α : Type} (l : List (String × α)) (k : String) (a : α) :
    ∀ x ∈ (setF l k a).map Prod.snd, x ∈ l.map Prod.snd ∨ x = a := by
  induction l with
  | nil =>
      intro x hx
      simp [setF] at hx
      exact Or.inr hx
  | cons hd t ih =>
      obtain ⟨k2, v2⟩ := hd
      intro x hx
      by_cases hk : k2 = k
      · simp only [setF, if_pos hk, List.map_cons, List.mem_cons] at hx
        rcases hx with rfl | hx
        · exact Or.inr rfl
        · exact Or.inl (List.mem_cons_of_mem _ hx)
      · simp only [setF, if_neg hk, List.map_cons, List.mem_cons] at hx
        rcases hx with rfl | hx
        · exact Or.inl (List.mem_cons_self _ _)
        · rcases ih x hx with h | h
          · exact Or.inl (List.mem_cons_of_mem _ h)
          · exact Or.inr h

theorem vals_setTag (cfg : Config) (o : HObj) (tv : HVal) :
    ∀ x ∈ (o.setTag cfg tv).vals, x ∈ o.vals ∨ x = tv := by
  cases o with
  | arr es props =>
      intro x hx
      simp only [HObj.setTag, HObj.vals, List.mem_append] at hx ⊢
      rcases hx with hx | hx
      · exact Or.inl (Or.inl hx)
      · rcases setF_vals_sub props cfg.refcode tv x hx with h | h
        · exact Or.inl (Or.inr h)
        · exact Or.inr h
  | obj fields p =>
      intro x hx
      simp only [HObj.setTag, HObj.vals] at hx ⊢
      rcases setF_vals_sub fields cfg.refcode tv x hx with h | h
      · exact Or.inl h
      · exact Or.inr h

theorem tagStepR_vals {cfg : Config} {o o' : HObj} (h : tagStepR cfg o o') :
    ∀ x ∈ o'.vals, x ∈ o.vals ∨ ∃ i : Int, x = .atomv (.num (.fin i)) := by
  rcases h with rfl | ⟨hu, i, rfl⟩
  · exact fun x hx => Or.inl hx
  · intro x hx
    rcases vals_setTag cfg o _ x hx with h | h
    · exact Or.inl h
    · exact Or.inr ⟨i, h⟩

theorem tagStepR_obj_proto {cfg : Config} {o o' : HObj} (h : tagStepR cfg o o')
    {fields2 : List (String × HVal)} {proto : Proto} (ho2 : o' = .obj fields2 proto) :
    ∃ fields, o = .obj fields proto := by
  rcases h with rfl | ⟨hu, i, rfl⟩
  · exact ⟨fields2, ho2⟩
  · cases o with
    | arr es props => simp [HObj.setTag] at ho2
    | obj f p =>
        simp only [HObj.setTag, HObj.obj.injEq] at ho2
        exact ⟨f, by rw [ho2.2]⟩

theorem closedHeap_evolves {cfg : Config} {h h' : Heap} (he : HeapEvolves cfg h h')
    (hc : ClosedHeap h) : ClosedHeap h' := by
  intro o' ho' v hv n hvn
  obtain ⟨m, hm⟩ := List.mem_iff_getElem?.mp ho'
  obtain ⟨o, ho, hstep⟩ := forall₂_getElem?_right he m o' hm
  rcases tagStepR_vals hstep v hv with hmem | ⟨i, rfl⟩
  · rw [heapEvolves_length cfg he]
    exact hc o (List.getElem?_mem ho) v hmem n hvn
  · exact absurd hvn (fun hcon => HVal.noConfusion hcon)

theorem plainProtos_evolves {cfg : Config} {h h' : Heap} (he : HeapEvolves cfg h h')
    (hp : PlainProtos h) : PlainProtos h' := by
  intro o' ho' fields2 proto ho2
  obtain ⟨m, hm⟩ := List.mem_iff_getElem?.mp ho'
  obtain ⟨o, ho, hstep⟩ := forall₂_getElem?_right he m o' hm
  obtain ⟨fields, hof⟩ := tagStepR_obj_proto hstep ho2
  exact hp o (List.getElem?_mem ho) fields proto hof

theorem fnFree_evolves {cfg : Config} {h h' : Heap} (he : HeapEvolves cfg h h')
    (hf : ∀ o ∈ h, ∀ v ∈ o.vals, v ≠ .atomv .fn) :
    ∀ o ∈ h', ∀ v ∈ o.vals, v ≠ .atomv .fn := by
  intro o' ho' v hv
  obtain ⟨m, hm⟩ := List.mem_iff_getElem?.mp ho'
  obtain ⟨o, ho, hstep⟩ := forall₂_getElem?_right he m o' hm
  rcases tagStepR_vals hstep v hv with hmem | ⟨i, rfl⟩
  · exact hf o (List.getElem?_mem ho) v hmem
  · intro hcon
    simp at hcon

/-! ## The encoder succeeds on well-formed function-free input -/

/-- Well-formed encoder input: references in range, every object a plain
literal, no stored function value. -/
def EncOK (h : Heap) : Prop :=
  ClosedHeap h ∧ PlainProtos h ∧ ∀ o ∈ h, ∀ v ∈ o.vals, v ≠ .atomv .fn

/-- A single value fit for visiting against heap `h`. -/
def EncVal (h : Heap) (v : HVal) : Prop :=
  (∀ n, v = .ref n → n < h.length) ∧ v ≠ .atomv .fn

theorem encOK_evolves {cfg : Config} {h h' : Heap} (he : HeapEvolves cfg h h')
    (hk : EncOK h) : EncOK h' :=
  ⟨closedHeap_evolves he hk.1, plainProtos_evolves he hk.2.1, fnFree_evolves he hk.2.2⟩

theorem encOK_val {h : Heap} (hk : EncOK h) {o : HObj} (ho : o ∈ h) {v : HVal}
    (hv : v ∈ o.vals) : EncVal h v :=
  ⟨fun n hn => hk.1 o ho v hv n hn, hk.2.2 o ho v hv⟩

theorem encVal_evolves {cfg : Config} {h h' : Heap} (he : HeapEvolves cfg h h')
    {v : HVal} (hv : EncVal h v) : EncVal h' v :=
  ⟨fun n hn => by rw [heapEvolves_length cfg he]; exact hv.1 n hn, hv.2⟩

theorem handleAtom_ok (a : JSAtom) (h : a ≠ .fn) : ∃ e, handleAtom a = .ok e := by
  cases a
  case fn => exact absurd rfl h
  all_goals exact ⟨_, rfl⟩

theorem tagCheck_obj_default (w : Window) (cfg : Config) :
    tagCheck w cfg false objectProto = .ok none := by
  unfold tagCheck
  by_cases hr : cfg.revive <;> simp [hr, objectProto]

section OkPass
variable (w : Window) (cfg : Config)

theorem visitElemsF_ok (fuel : Nat)
    (hf : ∀ st v, countUntagged cfg st.heap < fuel → EncOK st.heap → EncVal st.heap v →
          ∃ q, visit w cfg fuel st v = .ok q) :
    ∀ (l : List HVal) (st : EncSt), countUntagged cfg st.heap < fuel → EncOK st.heap →
      (∀ v ∈ l, EncVal st.heap v) →
      ∃ q, visitElemsF (visit w cfg fuel) st l = .ok q := by
  intro l
  induction l with
  | nil =>
      intro st hc hk hl
      exact ⟨([], st), rfl⟩
  | cons v rest ih =>
      intro st hc hk hl
      obtain ⟨⟨e1, st1⟩, h1⟩ := hf st v hc hk (hl v (List.mem_cons_self v rest))
      have hev : HeapEvolves cfg st.heap st1.heap :=
        (visit_pres w cfg fuel st v e1 st1 h1).1
      have hc1 : countUntagged cfg st1.heap < fuel :=
        Nat.lt_of_le_of_lt (countUntagged_mono cfg hev) hc
      obtain ⟨⟨es, st2⟩, h2⟩ := ih st1 hc1 (encOK_evolves hev hk)
        (fun v2 hv2 => encVal_evolves hev (hl v2 (List.mem_cons_of_mem v hv2)))
      exact ⟨(e1 :: es, st2), by simp only [visitElemsF, h1, h2]⟩

theorem visitFieldsF_ok (fuel : Nat)
    (hf : ∀ st v, countUntagged cfg st.heap < fuel → EncOK st.heap → EncVal st.heap v →
          ∃ q, visit w cfg fuel st v = .ok q) :
    ∀ (l : List (String × HVal)) (st : EncSt), countUntagged cfg st.heap < fuel →
      EncOK st.heap → (∀ kv ∈ l, EncVal st.heap kv.2) →
      ∃ q, visitFieldsF (visit w cfg fuel) st l = .ok q := by
  intro l
  induction l with
  | nil =>
      intro st hc hk hl
      exact ⟨([], st), rfl⟩
  | cons kv rest ih =>
      obtain ⟨k, v⟩ := kv
      intro st hc hk hl
      obtain ⟨⟨e1, st1⟩, h1⟩ := hf st v hc hk (hl (k, v) (List.mem_cons_self _ rest))
      have hev : HeapEvolves cfg st.heap st1.heap :=
        (visit_pres w cfg fuel st v e1 st1 h1).1
      have hc1 : countUntagged cfg st1.heap < fuel :=
        Nat.lt_of_le_of_lt (countUntagged_mono cfg hev) hc
      obtain ⟨⟨fs, st2⟩, h2⟩ := ih st1 hc1 (encOK_evolves hev hk)
        (fun kv2 hv2 => encVal_evolves hev (hl kv2 (List.mem_cons_of_mem _ hv2)))
      exact ⟨((k, e1) :: fs, st2), by simp only [visitFieldsF, h1, h2]⟩

theorem visit_ok : ∀ (fuel : Nat) (st : EncSt) (v : HVal),
    countUntagged cfg st.heap < fuel → EncOK st.heap → EncVal st.heap v →
    ∃ q, visit w cfg fuel st v = .ok q := by
  intro fuel
  induction fuel with
  | zero =>
      intro st v hc
      exact absurd hc (Nat.not_lt_zero _)
  | succ fuel ih =>
      intro st v hc hk hv
      cases v with
      | atomv a =>
          obtain ⟨e, he⟩ := handleAtom_ok a (fun hfn => hv.2 (by rw [hfn]))
          rw [visit_atom]
          exact ⟨(e, st), by simp [he]⟩
      | ref n =>
          rw [visit_succ_ref]
          unfold visitStep
          have hlt : n < st.heap.length := hv.1 n rfl
          cases ho : st.heap[n]? with
          | none =>
              rw [List.getElem?_eq_getElem hlt] at ho
              cases ho
          | some o =>
              have homem : o ∈ st.heap := List.getElem?_mem ho
              simp only []
              by_cases htag : o.isTagged cfg
              · rw [if_pos htag]
                exact ⟨_, rfl⟩
              · rw [if_neg htag]
                rw [Bool.not_eq_true] at htag
                cases o with
                | arr elems props =>
                    have hpres := pres_tagStArr cfg
                      (if cfg.revive then some "Array" else none) ho htag
                    have hcount : countUntagged cfg
                        (tagStArr cfg st n elems props
                          (if cfg.revive then some "Array" else none)).heap < fuel := by
                      have hlt2 := countUntagged_set_lt cfg ho htag
                        (isTagged_setTag_num cfg (HObj.arr elems props) ((st.table.length : Int)))
                      have hle2 : countUntagged cfg st.heap ≤ fuel := Nat.lt_succ_iff.mp hc
                      exact Nat.lt_of_lt_of_le hlt2 hle2
                    obtain ⟨⟨es, st2⟩, h2⟩ := visitElemsF_ok w cfg fuel ih elems _ hcount
                      (encOK_evolves hpres.1 hk)
                      (fun v2 hv2 => encVal_evolves hpres.1
                        (encOK_val hk homem (List.mem_append_left _ hv2)))
                    exact ⟨(.eref (.num (.fin (st.table.length : Int))),
                            ⟨st2.heap, st2.table.set st.table.length
                              (⟨true, es, [], if cfg.revive then some "Array" else none,
                                n⟩ : Copy)⟩),
                           by simp only [tagCheck_arr, h2]⟩
                | obj fields proto =>
                    have hproto : proto = objectProto := hk.2.1 _ homem fields proto rfl
                    subst hproto
                    have hpres := pres_tagStObj cfg (none : Option String) ho htag
                    have hcount : countUntagged cfg
                        (tagStObj cfg st n fields objectProto none).heap < fuel := by
                      have hlt2 := countUntagged_set_lt cfg ho htag
                        (isTagged_setTag_num cfg (HObj.obj fields objectProto) ((st.table.length : Int)))
                      have hle2 : countUntagged cfg st.heap ≤ fuel := Nat.lt_succ_iff.mp hc
                      exact Nat.lt_of_lt_of_le hlt2 hle2
                    obtain ⟨⟨fs, st2⟩, h2⟩ := visitFieldsF_ok w cfg fuel ih
                      (setF fields cfg.refcode (.atomv (.num (.fin (st.table.length : Int))))) _
                      hcount (encOK_evolves hpres.1 hk)
                      (fun kv2 hv2 => by
                        have hmm : kv2.2 ∈ (setF fields cfg.refcode
                            (.atomv (.num (.fin (st.table.length : Int))))).map Prod.snd :=
                          List.mem_map_of_mem Prod.snd hv2
                        rcases setF_vals_sub fields cfg.refcode _ kv2.2 hmm with hold | hnew
                        · exact encVal_evolves hpres.1 (encOK_val hk homem hold)
                        · rw [hnew]
                          exact ⟨fun n2 hn2 => absurd hn2 (fun hcc => HVal.noConfusion hcc),
                                 fun hcc => by simp at hcc⟩)
                    exact ⟨(.eref (.num (.fin (st.table.length : Int))),
                            ⟨st2.heap, st2.table.set st.table.length
                              (⟨false, [], fs, none, n⟩ : Copy)⟩),
                           by simp only [tagCheck_obj_default, h2]⟩

theorem stringify_ok {h : Heap} {n : Nat} (hk : EncOK h) (hn : n < h.length) :
    ∃ p, stringify w cfg h (.ref n) = .ok p := by
  unfold stringify
  obtain ⟨⟨e1, st⟩, hv⟩ := visit_ok w cfg (countUntagged cfg h + 1) ⟨h, []⟩ (.ref n)
      (Nat.lt_succ_self _) hk
      ⟨fun n2 hn2 => by cases hn2; exact hn, fun hcc => HVal.noConfusion hcc⟩
  exact ⟨(.jarr (st.table.map (fun c => jsonOfCopy cfg (cleanCopy cfg c))),
          st.table.foldl (fun hh c => cleanOrig cfg hh c.orig) st.heap),
         by simp only [hv]⟩

end OkPass

/-! ## Error classification: on plain closed input the only failure is the
function error -/

/-- The error thrown by `handleAtom` on a function value. -/
def fnErr : Err := .resurrectErr "Can\x27t serialize functions."

theorem handleAtom_classify (a : JSAtom) :
    (∃ e, handleAtom a = .ok e) ∨ handleAtom a = .error fnErr := by
  cases a
  case fn => exact Or.inr rfl
  all_goals exact Or.inl ⟨_, rfl⟩

/-- Plain closed input: references in range and plain-object prototypes
(function values allowed). -/
def PlainClosed (h : Heap) : Prop := ClosedHeap h ∧ PlainProtos h

theorem plainClosed_evolves {cfg : Config} {h h' : Heap} (he : HeapEvolves cfg h h')
    (hk : PlainClosed h) : PlainClosed h' :=
  ⟨closedHeap_evolves he hk.1, plainProtos_evolves he hk.2⟩

/-- Bound of a reference value against the heap. -/
def RefBound (h : Heap) (v : HVal) : Prop := ∀ n, v = .ref n → n < h.length

theorem refBound_evolves {cfg : Config} {h h' : Heap} (he : HeapEvolves cfg h h')
    {v : HVal} (hv : RefBound h v) : RefBound h' v :=
  fun n hn => by rw [heapEvolves_length cfg he]; exact hv n hn

section ClassifyPass
variable (w : Window) (cfg : Config)

theorem visitElemsF_classify (fuel : Nat)
    (hf : ∀ st v, countUntagged cfg st.heap < fuel → PlainClosed st.heap →
          RefBound st.heap v →
          (∃ q, visit w cfg fuel st v = .ok q) ∨ visit w cfg fuel st v = .error fnErr) :
    ∀ (l : List HVal) (st : EncSt), countUntagged cfg st.heap < fuel →
      PlainClosed st.heap → (∀ v ∈ l, RefBound st.heap v) →
      (∃ q, visitElemsF (visit w cfg fuel) st l = .ok q) ∨
      visitElemsF (visit w cfg fuel) st l = .error fnErr := by
  intro l
  induction l with
  | nil =>
      intro st hc hk hl
      exact Or.inl ⟨([], st), rfl⟩
  | cons v rest ih =>
      intro st hc hk hl
      rcases hf st v hc hk (hl v (List.mem_cons_self v rest)) with ⟨⟨e1, st1⟩, h1⟩ | h1
      · have hev : HeapEvolves cfg st.heap st1.heap :=
          (visit_pres w cfg fuel st v e1 st1 h1).1
        have hc1 : countUntagged cfg st1.heap < fuel :=
          Nat.lt_of_le_of_lt (countUntagged_mono cfg hev) hc
        rcases ih st1 hc1 (plainClosed_evolves hev hk)
            (fun v2 hv2 => refBound_evolves hev (hl v2 (List.mem_cons_of_mem v hv2))) with
          ⟨⟨es, st2⟩, h2⟩ | h2
        · exact Or.inl ⟨(e1 :: es, st2), by simp only [visitElemsF, h1, h2]⟩
        · exact Or.inr (by simp only [visitElemsF, h1, h2])
      · exact Or.inr (by simp only [visitElemsF, h1])

theorem visitFieldsF_classify (fuel : Nat)
    (hf : ∀ st v, countUntagged cfg st.heap < fuel → PlainClosed st.heap →
          RefBound st.heap v →
          (∃ q, visit w cfg fuel st v = .ok q) ∨ visit w cfg fuel st v = .error fnErr) :
    ∀ (l : List (String × HVal)) (st : EncSt), countUntagged cfg st.heap < fuel →
      PlainClosed st.heap → (∀ kv ∈ l, RefBound st.heap kv.2) →
      (∃ q, visitFieldsF (visit w cfg fuel) st l = .ok q) ∨
      visitFieldsF (visit w cfg fuel) st l = .error fnErr := by
  intro l
  induction l with
  | nil =>
      intro st hc hk hl
      exact Or.inl ⟨([], st), rfl⟩
  | cons kv rest ih =>
      obtain ⟨k, v⟩ := kv
      intro st hc hk hl
      rcases hf st v hc hk (hl (k, v) (List.mem_cons_self _ rest)) with ⟨⟨e1, st1⟩, h1⟩ | h1
      · have hev : HeapEvolves cfg st.heap st1.heap :=
          (visit_pres w cfg fuel st v e1 st1 h1).1
        have hc1 : countUntagged cfg st1.heap < fuel :=
          Nat.lt_of_le_of_lt (countUntagged_mono cfg hev) hc
        rcases ih st1 hc1 (plainClosed_evolves hev hk)
            (fun kv2 hv2 => refBound_evolves hev (hl kv2 (List.mem_cons_of_mem _ hv2))) with
          ⟨⟨fs, st2⟩, h2⟩ | h2
        · exact Or.inl ⟨((k, e1) :: fs, st2), by simp only [visitFieldsF, h1, h2]⟩
        · exact Or.inr (by simp only [visitFieldsF, h1, h2])
      · exact Or.inr (by simp only [visitFieldsF, h1])

theorem visit_classify : ∀ (fuel : Nat) (st : EncSt) (v : HVal),
    countUntagged cfg st.heap < fuel → PlainClosed st.heap → RefBound st.heap v →
    (∃ q, visit w cfg fuel st v = .ok q) ∨ visit w cfg fuel st v = .error fnErr := by
  intro fuel
  induction fuel with
  | zero =>
      intro st v hc
      exact absurd hc (Nat.not_lt_zero _)
  | succ fuel ih =>
      intro st v hc hk hv
      cases v with
      | atomv a =>
          rw [visit_atom]
          rcases handleAtom_classify a with ⟨e, he⟩ | he
          · exact Or.inl ⟨(e, st), by simp [he]⟩
          · exact Or.inr (by simp [he])
      | ref n =>
          rw [visit_succ_ref]
          unfold visitStep
          have hlt : n < st.heap.length := hv n rfl
          cases ho : st.heap[n]? with
          | none =>
              rw [List.getElem?_eq_getElem hlt] at ho
              cases ho
          | some o =>
              have homem : o ∈ st.heap := List.getElem?_mem ho
              simp only []
              by_cases htag : o.isTagged cfg
              · rw [if_pos htag]
                exact Or.inl ⟨_, rfl⟩
              · rw [if_neg htag]
                rw [Bool.not_eq_true] at htag
                cases o with
                | arr elems props =>
                    have hcount : countUntagged cfg
                        (tagStArr cfg st n elems props
                          (if cfg.revive then some "Array" else none)).heap < fuel := by
                      have hlt2 := countUntagged_set_lt cfg ho htag
                        (isTagged_setTag_num cfg (HObj.arr elems props) ((st.table.length : Int)))
                      have hle2 : countUntagged cfg st.heap ≤ fuel := Nat.lt_succ_iff.mp hc
                      exact Nat.lt_of_lt_of_le hlt2 hle2
                    have hpres := pres_tagStArr cfg
                      (if cfg.revive then some "Array" else none) ho htag
                    rcases visitElemsF_classify w cfg fuel ih elems _ hcount
                        (plainClosed_evolves hpres.1 hk)
                        (fun v2 hv2 => refBound_evolves hpres.1
                          (fun n2 hn2 => hk.1 _ homem v2 (List.mem_append_left _ hv2) n2 hn2))
                      with ⟨⟨es, st2⟩, h2⟩ | h2
                    · exact Or.inl ⟨(.eref (.num (.fin (st.table.length : Int))),
                            ⟨st2.heap, st2.table.set st.table.length
                              (⟨true, es, [], if cfg.revive then some "Array" else none,
                                n⟩ : Copy)⟩),
                           by simp only [tagCheck_arr, h2]⟩
                    · exact Or.inr (by simp only [tagCheck_arr, h2])
                | obj fields proto =>
                    have hproto : proto = objectProto := hk.2 _ homem fields proto rfl
                    subst hproto
                    have hcount : countUntagged cfg
                        (tagStObj cfg st n fields objectProto none).heap < fuel := by
                      have hlt2 := countUntagged_set_lt cfg ho htag
                        (isTagged_setTag_num cfg (HObj.obj fields objectProto) ((st.table.length : Int)))
                      have hle2 : countUntagged cfg st.heap ≤ fuel := Nat.lt_succ_iff.mp hc
                      exact Nat.lt_of_lt_of_le hlt2 hle2
                    have hpres := pres_tagStObj cfg (none : Option String) ho htag
                    rcases visitFieldsF_classify w cfg fuel ih
                        (setF fields cfg.refcode (.atomv (.num (.fin (st.table.length : Int)))))
                        _ hcount (plainClosed_evolves hpres.1 hk)
                        (fun kv2 hv2 => by
                          have hmm : kv2.2 ∈ (setF fields cfg.refcode
                              (.atomv (.num (.fin (st.table.length : Int))))).map Prod.snd :=
                            List.mem_map_of_mem Prod.snd hv2
                          rcases setF_vals_sub fields cfg.refcode _ kv2.2 hmm with hold | hnew
                          · exact refBound_evolves hpres.1
                              (fun n2 hn2 => hk.1 _ homem kv2.2 hold n2 hn2)
                          · rw [hnew]
                            exact fun n2 hn2 => absurd hn2 (fun hcc => HVal.noConfusion hcc))
                      with ⟨⟨fs, st2⟩, h2⟩ | h2
                    · exact Or.inl ⟨(.eref (.num (.fin (st.table.length : Int))),
                            ⟨st2.heap, st2.table.set st.table.length
                              (⟨false, [], fs, none, n⟩ : Copy)⟩),
                           by simp only [tagCheck_obj_default, h2]⟩
                    · exact Or.inr (by simp only [tagCheck_obj_default, h2])

theorem stringify_classify {h : Heap} {n : Nat} (hk : PlainClosed h) (hn : n < h.length) :
    (∃ p, stringify w cfg h (.ref n) = .ok p) ∨
    stringify w cfg h (.ref n) = .error fnErr := by
  unfold stringify
  rcases visit_classify w cfg (countUntagged cfg h + 1) ⟨h, []⟩ (.ref n)
      (Nat.lt_succ_self _) hk
      (fun n2 hn2 => by cases hn2; exact hn) with ⟨⟨e1, st⟩, hv⟩ | hv
  · exact Or.inl ⟨(.jarr (st.table.map (fun c => jsonOfCopy cfg (cleanCopy cfg c))),
          st.table.foldl (fun hh c => cleanOrig cfg hh c.orig) st.heap),
         by simp only [hv]⟩
  · exact Or.inr (by simp only [hv])

end ClassifyPass

/-! ## A reachable function value defeats the encoder -/

theorem reachesFn_not_encRel (w : Window) (cfg : Config) {h0 : Heap} {st : EncSt}
    (hti : TagInv cfg st)
    (hslots : ∀ (i : Nat) (c : Copy), st.table[i]? = some c → slotGood w cfg h0 st.heap i c) :
    ∀ v, ReachesFn h0 v → ∀ e, encRel cfg st.heap v e → False := by
  intro v hreach
  induction hreach with
  | fn =>
      intro e he
      have he2 : (Except.error fnErr : Except Err Enc) = .ok e := he
      cases he2
  | @arrElem n elems props v2 hn hv2 hr ih =>
      intro e he
      obtain ⟨i, hit, hnn, -⟩ := he
      obtain ⟨-, -, c, hc, hco⟩ := hti.1 n i hit
      obtain ⟨-, hcase⟩ := hslots i.toNat c hc
      rcases hcase with ⟨elems2, props2, hoo, -, -, -, hrel⟩ |
        ⟨fields2, proto2, hoo, -⟩
      · rw [hco, hn] at hoo
        injection hoo with hoe
        injection hoe with he1 he2
        subst he1
        obtain ⟨j, hj⟩ := List.mem_iff_getElem?.mp hv2
        obtain ⟨e2, he2, hrel2⟩ := forall₂_getElem?_left hrel j v2 hj
        exact ih e2 hrel2
      · rw [hco, hn] at hoo
        cases hoo
  | @objField n fields p k v2 hn hv2 hr ih =>
      intro e he
      obtain ⟨i, hit, hnn, -⟩ := he
      obtain ⟨-, -, c, hc, hco⟩ := hti.1 n i hit
      obtain ⟨-, hcase⟩ := hslots i.toNat c hc
      rcases hcase with ⟨elems2, props2, hoo, -⟩ |
        ⟨fields2, proto2, hoo, -, -, -, -, hrel⟩
      · rw [hco, hn] at hoo
        cases hoo
      · rw [hco, hn] at hoo
        injection hoo with hoe
        injection hoe with he1 he2
        subst he1
        obtain ⟨j, hj⟩ := List.mem_iff_getElem?.mp (List.mem_append_left _ hv2)
        obtain ⟨e2, he2, hrel2⟩ := forall₂_getElem?_left hrel j (k, v2) hj
        exact ih e2.2 hrel2.2

/-! ## Structural equality of the decoded value with the source -/

theorem decRel_atom_safe {cfg : Config} {h1 : Heap} {a : JSAtom} {d : DVal}
    (hs : safeAtom a = true) (hr : decRel cfg h1 (.atomv a) d) : d = .datom a := by
  cases a with
  | null => exact hr
  | undef => exact hr
  | bool b => exact hr
  | str s => exact hr
  | date iso => exact hr
  | fn => cases hs
  | num jn =>
      cases jn with
      | fin v => exact hr
      | nan => cases hs
      | inf => cases hs
      | ninf => cases hs

theorem optListMap_corr {A B C : Type} {R : A → B → Prop}
    {f : A → Option C} {g : B → Option C} :
    ∀ {l1 : List A} {l2 : List B},
      List.Forall₂ R l1 l2 →
      (∀ a ∈ l1, ∀ b, R a b → ∀ t, f a = some t → g b = some t) →
      ∀ ts, optListMap f l1 = some ts → optListMap g l2 = some ts := by
  intro l1 l2 hrel
  induction hrel with
  | nil =>
      intro hf ts h
      exact h
  | @cons a b t1 t2 hab ht ih =>
      intro hf ts h
      simp only [optListMap] at h
      cases hfa : f a with
      | none =>
          simp only [hfa] at h
          exact Option.noConfusion h
      | some y =>
          simp only [hfa] at h
          cases hrest : optListMap f t1 with
          | none =>
              simp only [hrest] at h
              exact Option.noConfusion h
          | some ys =>
              simp only [hrest] at h
              have hgb : g b = some y := hf a (List.mem_cons_self a t1) b hab y hfa
              have hgt : optListMap g t2 = some ys :=
                ih (fun a2 ha2 => hf a2 (List.mem_cons_of_mem a ha2)) ys hrest
              simp only [optListMap, hgb, hgt]
              exact h

theorem optFieldsMap_corr {A B C : Type} {R : A → B → Prop}
    {f : A → Option C} {g : B → Option C} :
    ∀ {l1 : List (String × A)} {l2 : List (String × B)},
      List.Forall₂ (fun kv kd => kv.1 = kd.1 ∧ R kv.2 kd.2) l1 l2 →
      (∀ kv ∈ l1, ∀ b, R kv.2 b → ∀ t, f kv.2 = some t → g b = some t) →
      ∀ ts, optFieldsMap f l1 = some ts → optFieldsMap g l2 = some ts := by
  intro l1 l2 hrel
  induction hrel with
  | nil =>
      intro hf ts h
      exact h
  | @cons kv kd t1 t2 hab ht ih =>
      intro hf ts h
      obtain ⟨k, x⟩ := kv
      obtain ⟨k2, y2⟩ := kd
      have hk : k = k2 := hab.1
      simp only [optFieldsMap] at h
      cases hfa : f x with
      | none =>
          simp only [hfa] at h
          exact Option.noConfusion h
      | some y =>
          simp only [hfa] at h
          cases hrest : optFieldsMap f t1 with
          | none =>
              simp only [hrest] at h
              exact Option.noConfusion h
          | some ys =>
              simp only [hrest] at h
              have hgb : g y2 = some y := hf (k, x) (List.mem_cons_self _ t1) y2 hab.2 y hfa
              have hgt : optFieldsMap g t2 = some ys :=
                ih (fun kv2 hkv2 => hf kv2 (List.mem_cons_of_mem _ hkv2)) ys hrest
              simp only [optFieldsMap, hgb, hgt, ← hk]
              exact h

/-- Unfolding the decoded table reproduces the source tree: each certified
slot mirrors its original one level, so the unfoldings agree at every
depth. -/
theorem decToTree_of_srcToTree (w : Window) (cfg : Config)
    {h0 h1 : Heap} {tbl : List Copy} {ds : List DObj}
    (hS : SafeHeapAtoms h0)
    (hti1 : ∀ (m : Nat) (i : Int), idTag cfg h1 m = some i →
        ∃ c, tbl[i.toNat]? = some c ∧ c.orig = m)
    (hdsr : List.Forall₂ (copyDec w cfg h0 h1) tbl ds)
    (htags : ∀ (i : Nat) (c : Copy), tbl[i]? = some c →
        ∀ fields proto, h0[c.orig]? = some (.obj fields proto) → c.tag = none) :
    ∀ (fuel : Nat) (v : HVal) (d : DVal),
      decRel cfg h1 v d → (∀ a, v = .atomv a → safeAtom a = true) →
      ∀ t, srcToTree h0 fuel v = some t → decToTree ds fuel d = some t := by
  intro fuel
  induction fuel with
  | zero =>
      intro v d hrel hsafe t hsrc
      cases v with
      | atomv a =>
          rw [srcToTree_atom] at hsrc
          injection hsrc with ht
          subst ht
          rw [decRel_atom_safe (hsafe a rfl) hrel]
          exact decToTree_atom ds 0 a
      | ref n => exact Option.noConfusion hsrc
  | succ fuel ih =>
      intro v d hrel hsafe t hsrc
      cases v with
      | atomv a =>
          rw [srcToTree_atom] at hsrc
          injection hsrc with ht
          subst ht
          rw [decRel_atom_safe (hsafe a rfl) hrel]
          exact decToTree_atom ds (fuel + 1) a
      | ref n =>
          obtain ⟨i, hit, hnn, rfl⟩ := hrel
          rw [srcToTree_succ_ref] at hsrc
          obtain ⟨c, hc, hco⟩ := hti1 n i hit
          obtain ⟨dobj, hd, hcd⟩ := forall₂_getElem?_left hdsr i.toNat c hc
          rw [decToTree_succ_ref]
          cases ho : h0[n]? with
          | none =>
              simp only [ho] at hsrc
              exact Option.noConfusion hsrc
          | some o =>
              have homem : o ∈ h0 := List.getElem?_mem ho
              simp only [ho] at hsrc
              cases o with
              | arr elems props =>
                  rcases hcd with ⟨elems2, props2, dls, hoo, rfl, hrel2⟩ |
                      ⟨fields2, proto2, dfs, hoo, rfl, hrel2⟩
                  · rw [hco, ho] at hoo
                    injection hoo with hoe
                    injection hoe with he1 he2
                    subst he1
                    cases hmap : optListMap (srcToTree h0 fuel) elems with
                    | none =>
                        simp only [hmap] at hsrc
                        exact Option.noConfusion hsrc
                    | some ts =>
                        simp only [hmap] at hsrc
                        injection hsrc with ht
                        subst ht
                        have hmap2 : optListMap (decToTree ds fuel) dls = some ts :=
                          optListMap_corr hrel2
                            (fun v2 hv2 d2 hr2 t2 hs2 => ih v2 d2 hr2
                              (fun a2 ha2 => hS _ homem v2
                                (List.mem_append_left _ hv2) a2 ha2) t2 hs2)
                            ts hmap
                        simp only [hd, hmap2]
                  · rw [hco, ho] at hoo
                    cases hoo
              | obj fields proto =>
                  rcases hcd with ⟨elems2, props2, dls, hoo, rfl, hrel2⟩ |
                      ⟨fields2, proto2, dfs, hoo, rfl, hrel2⟩
                  · rw [hco, ho] at hoo
                    cases hoo
                  · rw [hco, ho] at hoo
                    injection hoo with hoe
                    injection hoe with he1 he2
                    subst he1
                    have htagc : c.tag = none := htags i.toNat c hc fields proto (hco ▸ ho)
                    simp only [htagc, List.nil_append] at hd
                    cases hmap : optFieldsMap (srcToTree h0 fuel) fields with
                    | none =>
                        simp only [hmap] at hsrc
                        exact Option.noConfusion hsrc
                    | some ts =>
                        simp only [hmap] at hsrc
                        injection hsrc with ht
                        subst ht
                        have hmap2 : optFieldsMap (decToTree ds fuel) dfs = some ts :=
                          optFieldsMap_corr hrel2
                            (fun kv2 hkv2 d2 hr2 t2 hs2 => ih kv2.2 d2 hr2
                              (fun a2 ha2 => hS _ homem kv2.2
                                (List.mem_map_of_mem Prod.snd hkv2) a2 ha2) t2 hs2)
                            ts hmap
                        simp only [hd, hmap2]

/-! ## The caller's heap after finalization -/

/-- What `stringify` leaves of the caller's graph: every node keeps exactly
its own fields, except that the identity-tag property is deleted in cleanup
mode and reset to `null` in the default mode. -/
theorem stringify_heap_after (w : Window) (cfg : Config) {h0 : Heap} {r : Nat}
    {wire : JVal} {h2 : Heap}
    (hU : UntaggedHeap cfg h0)
    (hs : stringify w cfg h0 (.ref r) = .ok (wire, h2)) :
    h2.length = h0.length ∧
    ∀ (n : Nat) (o : HObj), h0[n]? = some o → ∃ o2, h2[n]? = some o2 ∧
      o2.delTag cfg = o ∧
      (o2.getTag cfg = none ∨
       (cfg.cleanup = false ∧ o2.getTag cfg = some (.atomv .null))) ∧
      (cfg.cleanup = true → o2.getTag cfg = none) := by
  obtain ⟨st, hwire, hh2, hhe, hti, hslots, hroot, hlen⟩ := stringify_sound w cfg hU hs
  subst hh2
  constructor
  · rw [foldl_cleanOrig_length cfg, heapEvolves_length cfg hhe]
  · intro n o ho
    have hgo : o.getTag cfg = none := hU o (List.getElem?_mem ho)
    obtain ⟨o1, ho1, hstep⟩ := heapEvolves_get cfg hhe ho
    by_cases hmem : n ∈ st.table.map Copy.orig
    · rcases hstep with heq | ⟨hu, j, heq⟩
      · exfalso
        rw [heq] at ho1
        obtain ⟨c, hcm, hcorig⟩ := List.mem_map.mp hmem
        obtain ⟨i2, hci⟩ := List.mem_iff_getElem?.mp hcm
        have hid := hti.2.1 i2 c hci
        rw [hcorig] at hid
        have hnone : idTag cfg st.heap n = none :=
          idTag_none_of_untagged cfg ho1 (isTagged_of_getTag_none cfg hgo)
        rw [hnone] at hid
        cases hid
      · subst heq
        have hhit := foldl_cleanOrig_hit cfg st.table st.heap n _ ho1
          (origs_nodup cfg hti) hmem
        by_cases hcl : cfg.cleanup = true
        · refine ⟨o, ?_, delTag_of_getTag_none cfg hgo, Or.inl hgo, fun _ => hgo⟩
          rw [hhit, if_pos hcl, delTag_setTag_of_none cfg hgo]
        · have hcl2 : cfg.cleanup = false := by
            rw [Bool.not_eq_true] at hcl
            exact hcl
          refine ⟨o.setTag cfg (.atomv .null), ?_, delTag_setTag_of_none cfg hgo _,
                  Or.inr ⟨hcl2, getTag_setTag cfg o _⟩,
                  fun hcc => absurd hcc hcl⟩
          rw [hhit, if_neg hcl, setTag_setTag]
    · have hne := foldl_cleanOrig_ne cfg st.table st.heap n
        (fun c hc hcon => hmem (hcon ▸ List.mem_map_of_mem Copy.orig hc))
      rcases hstep with heq | ⟨hu, j, heq⟩
      · rw [heq] at ho1
        exact ⟨o, by rw [hne]; exact ho1, delTag_of_getTag_none cfg hgo,
               Or.inl hgo, fun _ => hgo⟩
      · exfalso
        subst heq
        have hid : idTag cfg st.heap n = some (j : Int) := by
          unfold idTag
          simp only [ho1, getTag_setTag]
          rfl
        obtain ⟨-, -, c, hc, hcorig⟩ := hti.1 n _ hid
        exact hmem (hcorig ▸ List.mem_map_of_mem Copy.orig (List.getElem?_mem hc))

/-- A small global namespace for concrete instances: the built-ins plus one
user constructor `Foo`. -/
def fooProto : Proto := ⟨2, "Foo", [("greet", .fn)]⟩

def stdW : Window :=
  [("Date", .dateCtor), ("Object", .protoCtor objectProto), ("Foo", .protoCtor fooProto)]

/-! ## Decidable certificates for the heap preconditions -/

theorem untaggedHeap_of_b {cfg : Config} {h : Heap}
    (hb : h.all (fun o => (o.getTag cfg).isNone) = true) : UntaggedHeap cfg h := by
  intro o ho
  have h1 := (List.all_eq_true.mp hb) o ho
  exact Option.isNone_iff_eq_none.mp h1

theorem cleanKeys_of_b {cfg : Config} {h : Heap}
    (hb : h.all (fun o => o.keys.all (cleanKey cfg.pfx)) = true) : CleanKeys cfg h := by
  intro o ho k hk
  exact (List.all_eq_true.mp ((List.all_eq_true.mp hb) o ho)) k hk

/-- Decidable form of the in-range condition on one stored value. -/
def closedValB (len : Nat) : HVal → Bool
  | .ref n => decide (n < len)
  | .atomv _ => true

/-- Decidable form of `ClosedHeap`. -/
def ClosedHeapB (h : Heap) : Bool :=
  h.all (fun o => o.vals.all (closedValB h.length))

theorem closedHeap_of_b {h : Heap} (hb : ClosedHeapB h = true) : ClosedHeap h := by
  intro o ho v hv n hvn
  have h1 := (List.all_eq_true.mp hb) o ho
  have h2 := (List.all_eq_true.mp h1) v hv
  rw [hvn] at h2
  exact of_decide_eq_true h2

/-- Decidable form of the plain-prototype condition on one node. -/
def plainProtoB : HObj → Bool
  | .obj _ p => decide (p = objectProto)
  | .arr _ _ => true

theorem plainProtos_of_b {h : Heap} (hb : h.all plainProtoB = true) : PlainProtos h := by
  intro o ho fields proto hoe
  have h1 := (List.all_eq_true.mp hb) o ho
  rw [hoe] at h1
  exact of_decide_eq_true h1

/-- Decidable form of function-freeness of one stored value. -/
def fnFreeValB : HVal → Bool
  | .atomv .fn => false
  | _ => true

theorem fnFree_of_b {h : Heap} (hb : h.all (fun o => o.vals.all fnFreeValB) = true) :
    ∀ o ∈ h, ∀ v ∈ o.vals, v ≠ .atomv .fn := by
  intro o ho v hv hc
  have h1 := (List.all_eq_true.mp hb) o ho
  have h2 := (List.all_eq_true.mp h1) v hv
  rw [hc] at h2
  cases h2

/-- Decidable form of atom safety of one stored value. -/
def safeValB : HVal → Bool
  | .atomv a => safeAtom a
  | .ref _ => true

theorem safeHeapAtoms_of_b {h : Heap}
    (hb : h.all (fun o => o.vals.all safeValB) = true) : SafeHeapAtoms h := by
  intro o ho v hv a hva
  have h1 := (List.all_eq_true.mp hb) o ho
  have h2 := (List.all_eq_true.mp h1) v hv
  rw [hva] at h2
  exact h2

/-- Decidable form of the plain-array condition on one node. -/
def noArrPropsB : HObj → Bool
  | .arr _ props => props.isEmpty
  | .obj _ _ => true

theorem noArrProps_of_b {h : Heap} (hb : h.all noArrPropsB = true) : NoArrProps h := by
  intro o ho elems props hoe
  have h1 := (List.all_eq_true.mp hb) o ho
  rw [hoe] at h1
  simpa [noArrPropsB, List.isEmpty_iff] using h1

theorem encOK_of_b {h : Heap} (hc : ClosedHeapB h = true)
    (hp : h.all plainProtoB = true)
    (hf : h.all (fun o => o.vals.all fnFreeValB) = true) : EncOK h :=
  ⟨closedHeap_of_b hc, plainProtos_of_b hp, fnFree_of_b hf⟩

/-! ## Concrete instances used by the witnesses and counterexamples -/

/-- `[x, x]`: a two-element array whose elements are the same object. -/
def hShared : Heap :=
  [.arr [.ref 1, .ref 1] [], .obj [("a", .atomv (.num (.fin 1)))] objectProto]

/-- `x.self = x`: a self-referencing object. -/
def hSelf : Heap := [.obj [("self", .ref 0)] objectProto]

/-- A plain object holding `NaN`. -/
def hNaN : Heap := [.obj [("x", .atomv (.num .nan))] objectProto]

/-- A plain object holding a function value. -/
def hFn : Heap := [.obj [("f", .atomv .fn)] objectProto]

/-- A plain object holding `Infinity`. -/
def hInf : Heap := [.obj [("x", .atomv (.num .inf))] objectProto]

/-- A plain object holding `undefined`. -/
def hUndef : Heap := [.obj [("u", .atomv .undef)] objectProto]

/-- A typed object whose prototype is the global `Foo.prototype`. -/
def hFoo : Heap := [.obj [("bar", .atomv (.bool true))] fooProto]

/-- A prototype named `Foo` that is not the global `Foo.prototype`. -/
def badProto : Proto := ⟨9, "Foo", []⟩

/-- A non-default prototype whose constructor is nevertheless named
`Object`. -/
def objNamedProto : Proto := ⟨5, "Object", []⟩

/-! ## Small helpers for the claim theorems -/

theorem forall₂_keys_eq {A B : Type} {R : A → B → Prop} :
    ∀ {l1 : List (String × A)} {l2 : List (String × B)},
      List.Forall₂ (fun kv kd => kv.1 = kd.1 ∧ R kv.2 kd.2) l1 l2 →
      l2.map Prod.fst = l1.map Prod.fst := by
  intro l1 l2 h
  induction h with
  | nil => rfl
  | @cons x y t1 t2 hr ht ih =>
      rw [List.map_cons, List.map_cons, ih, hr.1]

theorem visitStep_obj_tagCheck_err (w : Window) (cfg : Config)
    (f : EncSt → HVal → Except Err (Enc × EncSt)) (st : EncSt) (n : Nat)
    {fields : List (String × HVal)} {proto : Proto} {e : Err}
    (ho : st.heap[n]? = some (.obj fields proto))
    (hu : HObj.isTagged cfg (.obj fields proto) = false)
    (htc : tagCheck w cfg false proto = .error e) :
    visitStep w cfg f st n = .error e := by
  unfold visitStep
  simp [ho, hu, htc]

/-! ## The claims -/

/-- C1: for a graph `[x, x]` whose two elements are the same composite node,
decoding the encoding yields an array slot whose element 0 and element 1 are
the same table reference (one shared reconstructed node), not two copies. -/
theorem C1_shared_reference_identity {w : Window} {cfg : Config} {h : Heap} {r m : Nat}
    {props : List (String × HVal)}
    (hU : UntaggedHeap cfg h) (hCK : CleanKeys cfg h) (hk : EncOK h)
    (hDate : windowLookup w "Date" = some .dateCtor)
    (hroot : h[r]? = some (.arr [.ref m, .ref m] props)) :
    ∃ wire h2 ds j, stringify w cfg h (.ref r) = .ok (wire, h2) ∧
      resurrect w cfg wire = .ok (ds, .dref 0) ∧
      ds[0]? = some (.darr [.dref j, .dref j]) := by
  have hrlt : r < h.length := (List.getElem?_eq_some_iff.mp hroot).1
  obtain ⟨⟨wire, h2⟩, hs⟩ := stringify_ok w cfg hk hrlt
  obtain ⟨h1, tbl, ds, hres, hdsr, hhe, hti, hslots, hroot0⟩ :=
    resurrect_of_stringify w cfg hU hCK hDate hs
  obtain ⟨-, -, c, hc, hcorig⟩ := hti.1 r 0 hroot0
  have hc0 : tbl[0]? = some c := hc
  obtain ⟨d, hd, hcd⟩ := forall₂_getElem?_left hdsr 0 c hc0
  rcases hcd with ⟨elems2, props2, dls, hoo, heq, hrel2⟩ |
      ⟨fields2, proto2, dfs, hoo, heq, hrel2⟩
  · rw [hcorig, hroot] at hoo
    injection hoo with hoe
    injection hoe with he1 he2
    subst he1
    cases hrel2 with
    | cons hr1 hrest =>
        cases hrest with
        | cons hr2 hnil =>
            cases hnil
            obtain ⟨i1, hit1, hnn1, hd1⟩ := hr1
            obtain ⟨i2, hit2, hnn2, hd2⟩ := hr2
            rw [hit1] at hit2
            injection hit2 with hii
            refine ⟨wire, h2, ds, i1.toNat, hs, hres, ?_⟩
            rw [hd, heq, hd1, hd2, ← hii]
  · rw [hcorig, hroot] at hoo
    exact absurd hoo (by simp)

theorem C1_witness :
    UntaggedHeap Config.default hShared ∧ EncOK hShared ∧
    (∃ wire h2 ds j, stringify stdW Config.default hShared (.ref 0) = .ok (wire, h2) ∧
      resurrect stdW Config.default wire = .ok (ds, .dref 0) ∧
      ds[0]? = some (.darr [.dref j, .dref j])) :=
  ⟨untaggedHeap_of_b (by decide), encOK_of_b (by decide) (by decide) (by decide),
   C1_shared_reference_identity (untaggedHeap_of_b (by decide))
     (cleanKeys_of_b (by decide)) (encOK_of_b (by decide) (by decide) (by decide))
     rfl rfl⟩

/-- C2: a self-referencing node encodes without running out of fuel (the
model's rendering of termination: the node is tagged before its children are
visited, so the second visit returns a reference without re-descending), and
the decoded node's `self` field is a reference to that node's own slot. -/
theorem C2_self_cycle {w : Window} {cfg : Config} {h : Heap} {r : Nat}
    {fields : List (String × HVal)} {proto : Proto}
    (hU : UntaggedHeap cfg h) (hCK : CleanKeys cfg h) (hk : EncOK h)
    (hDate : windowLookup w "Date" = some .dateCtor)
    (hr : h[r]? = some (.obj fields proto))
    (hself : ("self", HVal.ref r) ∈ fields) :
    stringify w cfg h (.ref r) ≠ .error .outOfFuel ∧
    ∃ wire h2 ds dfs, stringify w cfg h (.ref r) = .ok (wire, h2) ∧
      resurrect w cfg wire = .ok (ds, .dref 0) ∧
      ds[0]? = some (.dobj dfs objectProto) ∧ ("self", DVal.dref 0) ∈ dfs := by
  refine ⟨stringify_no_oof w cfg h _, ?_⟩
  have hrlt : r < h.length := (List.getElem?_eq_some_iff.mp hr).1
  have hproto : proto = objectProto := hk.2.1 _ (List.getElem?_mem hr) fields proto rfl
  subst hproto
  obtain ⟨⟨wire, h2⟩, hs⟩ := stringify_ok w cfg hk hrlt
  obtain ⟨h1, tbl, ds, hres, hdsr, hhe, hti, hslots, hroot0⟩ :=
    resurrect_of_stringify w cfg hU hCK hDate hs
  obtain ⟨-, -, c, hc, hcorig⟩ := hti.1 r 0 hroot0
  have hc0 : tbl[0]? = some c := hc
  obtain ⟨d, hd, hcd⟩ := forall₂_getElem?_left hdsr 0 c hc0
  have htag : c.tag = none := by
    obtain ⟨-, hcase⟩ := hslots 0 c hc0
    rcases hcase with ⟨e2, p2, hoo, -, -, -, -⟩ | ⟨f2, p2, hoo, -, -, htc, -, -⟩
    · rw [hcorig, hr] at hoo
      exact absurd hoo (by simp)
    · rw [hcorig, hr] at hoo
      injection hoo with hoe
      injection hoe with he1 he2
      rw [← he2, tagCheck_obj_default w cfg] at htc
      injection htc with he3
      exact he3.symm
  rcases hcd with ⟨e2, p2, dls, hoo, heq, -⟩ | ⟨f2, p2, dfs, hoo, heq, hrel2⟩
  · rw [hcorig, hr] at hoo
    exact absurd hoo (by simp)
  · rw [hcorig, hr] at hoo
    injection hoo with hoe
    injection hoe with he1 he2
    subst he1
    rw [htag] at heq
    simp only [List.nil_append] at heq
    obtain ⟨j, hj⟩ := List.mem_iff_getElem?.mp hself
    obtain ⟨kd, hkd, hkrel⟩ := forall₂_getElem?_left hrel2 j ("self", HVal.ref r) hj
    refine ⟨wire, h2, ds, dfs, hs, hres, by rw [hd, heq], ?_⟩
    obtain ⟨k1, d1⟩ := kd
    have hk1 : k1 = "self" := hkrel.1.symm
    have hd1 : d1 = DVal.dref 0 := by
      obtain ⟨i, hit, -, hdref⟩ := hkrel.2
      rw [hroot0] at hit
      injection hit with hii
      have hdref2 : d1 = DVal.dref i.toNat := hdref
      rw [hdref2, ← hii]
      rfl
    subst hk1
    subst hd1
    exact List.getElem?_mem hkd

theorem C2_witness :
    UntaggedHeap Config.default hSelf ∧ EncOK hSelf ∧
    (stringify stdW Config.default hSelf (.ref 0) ≠ .error .outOfFuel ∧
     ∃ wire h2 ds dfs, stringify stdW Config.default hSelf (.ref 0) = .ok (wire, h2) ∧
       resurrect stdW Config.default wire = .ok (ds, .dref 0) ∧
       ds[0]? = some (.dobj dfs objectProto) ∧ ("self", DVal.dref 0) ∈ dfs) :=
  ⟨untaggedHeap_of_b (by decide), encOK_of_b (by decide) (by decide) (by decide),
   C2_self_cycle (untaggedHeap_of_b (by decide)) (cleanKeys_of_b (by decide))
     (encOK_of_b (by decide) (by decide) (by decide)) rfl rfl
     (List.mem_cons_self _ _)⟩

/-- C3 (amended): for an acyclic graph of plain sequences and keyed mappings
whose atoms are safe for the structural text codec (no functions and no
non-finite numbers; the original claim, allowing every atom, fails on `NaN`),
the round trip succeeds and reproduces the source tree exactly. -/
theorem C3_roundtrip_amended {w : Window} {cfg : Config} {h : Heap} {r : Nat}
    {fuel : Nat} {t : Tree}
    (hU : UntaggedHeap cfg h) (hCK : CleanKeys cfg h)
    (hS : SafeHeapAtoms h) (hC : ClosedHeap h) (hP : PlainProtos h)
    (hA : NoArrProps h)
    (hDate : windowLookup w "Date" = some .dateCtor)
    (hrlt : r < h.length)
    (ht : srcToTree h fuel (.ref r) = some t) :
    ∃ wire h2 ds, stringify w cfg h (.ref r) = .ok (wire, h2) ∧
      resurrect w cfg wire = .ok (ds, .dref 0) ∧
      decToTree ds fuel (.dref 0) = some t := by
  have hFn : ∀ o ∈ h, ∀ v ∈ o.vals, v ≠ .atomv .fn := by
    intro o ho v hv hcc
    have hx := hS o ho v hv .fn hcc
    cases hx
  obtain ⟨⟨wire, h2⟩, hs⟩ := stringify_ok w cfg ⟨hC, hP, hFn⟩ hrlt
  obtain ⟨h1, tbl, ds, hres, hdsr, hhe, hti, hslots, hroot0⟩ :=
    resurrect_of_stringify w cfg hU hCK hDate hs
  refine ⟨wire, h2, ds, hs, hres, ?_⟩
  have htags : ∀ (i : Nat) (c : Copy), tbl[i]? = some c →
      ∀ fields proto, h[c.orig]? = some (.obj fields proto) → c.tag = none := by
    intro i c hc fields proto hof
    obtain ⟨-, hcase⟩ := hslots i c hc
    rcases hcase with ⟨e2, p2, hoo, -, -, -, -⟩ | ⟨f2, p2, hoo, -, -, htc, -, -⟩
    · rw [hof] at hoo
      exact absurd hoo (by simp)
    · rw [hof] at hoo
      injection hoo with hoe
      injection hoe with he1 he2
      have hp2 : p2 = objectProto := by
        rw [← he2]
        exact hP _ (List.getElem?_mem hof) fields proto rfl
      rw [hp2, tagCheck_obj_default w cfg] at htc
      injection htc with he3
      exact he3.symm
  exact decToTree_of_srcToTree w cfg hS (fun m i hmi => (hti.1 m i hmi).2.2) hdsr htags
    fuel (.ref r) (.dref 0) ⟨0, hroot0, le_refl 0, rfl⟩
    (fun a ha => absurd ha (fun hcc => HVal.noConfusion hcc)) t ht

theorem C3_witness :
    SafeHeapAtoms hShared ∧ 0 < hShared.length ∧
    srcToTree hShared 3 (.ref 0) =
      some (.tarr [.tobj [("a", .tatom (.num (.fin 1)))],
                   .tobj [("a", .tatom (.num (.fin 1)))]]) ∧
    (∃ wire h2 ds, stringify stdW Config.default hShared (.ref 0) = .ok (wire, h2) ∧
      resurrect stdW Config.default wire = .ok (ds, .dref 0) ∧
      decToTree ds 3 (.dref 0) =
        some (.tarr [.tobj [("a", .tatom (.num (.fin 1)))],
                     .tobj [("a", .tatom (.num (.fin 1)))]])) :=
  ⟨safeHeapAtoms_of_b (by decide), by decide, rfl,
   C3_roundtrip_amended (untaggedHeap_of_b (by decide)) (cleanKeys_of_b (by decide))
     (safeHeapAtoms_of_b (by decide)) (closedHeap_of_b (by decide))
     (plainProtos_of_b (by decide)) (noArrProps_of_b (by decide)) rfl
     (by decide) rfl⟩

/-- C3 counterexample: the original round-trip claim quantifies over all
atoms, but a mapping holding `NaN` — acyclic, plain, clean keys — decodes to
a structurally different tree: the wire carries `null` where the source had
`NaN`. -/
theorem C3_counterexample :
    stringify stdW Config.default hNaN (.ref 0) =
      .ok (.jarr [.jobj [("x", .jnull)]],
           [.obj [("x", .atomv (.num .nan)), ("#id", .atomv .null)] objectProto]) ∧
    resurrect stdW Config.default (.jarr [.jobj [("x", .jnull)]]) =
      .ok ([.dobj [("x", .datom .null)] objectProto], .dref 0) ∧
    srcToTree hNaN 2 (.ref 0) = some (.tobj [("x", .tatom (.num .nan))]) ∧
    decToTree [.dobj [("x", .datom .null)] objectProto] 2 (.dref 0) =
      some (.tobj [("x", .tatom .null)]) ∧
    (Tree.tobj [("x", .tatom (.num .nan))]) ≠ (Tree.tobj [("x", .tatom .null)]) :=
  ⟨rfl, rfl, rfl, rfl, by simp⟩

/-- C4: contrary to the README, non-finite numbers do not round-trip: the
structural text layer coerces `NaN` and the infinities to `null`, both at
the root and inside a composite, so decoding yields `null`, not an equal
value of the same kind. -/
theorem C4_nonfinite_coerced :
    stringify stdW Config.default [] (.atomv (.num .nan)) = .ok (.jnull, []) ∧
    resurrect stdW Config.default .jnull = .ok ([], .datom .null) ∧
    DVal.datom .null ≠ .datom (.num .nan) ∧
    stringify stdW Config.default hInf (.ref 0) =
      .ok (.jarr [.jobj [("x", .jnull)]],
           [.obj [("x", .atomv (.num .inf)), ("#id", .atomv .null)] objectProto]) ∧
    resurrect stdW Config.default (.jarr [.jobj [("x", .jnull)]]) =
      .ok ([.dobj [("x", .datom .null)] objectProto], .dref 0) ∧
    DVal.datom .null ≠ .datom (.num .inf) :=
  ⟨rfl, rfl, by decide, rfl, rfl, by decide⟩

/-- C5: `undefined` encodes, at the root and in a field, as the reference
encoding `{ prefix: -1 }`; the sentinel fails the decoder's bounds check for
every table length, so it never resolves to a real slot and always decodes
to `undefined`, which is distinct from `null`. -/
theorem C5_undefined_roundtrip :
    (∀ (w : Window) (cfg : Config) (h : Heap),
      stringify w cfg h (.atomv .undef) = .ok (.jobj [(cfg.pfx, .jnum (-1))], h)) ∧
    (∀ (w : Window) (cfg : Config),
      resurrect w cfg (.jobj [(cfg.pfx, .jnum (-1))]) = .ok ([], .datom .undef)) ∧
    (∀ (w : Window) (cfg : Config) (len : Nat),
      decodeEnc w cfg len [(cfg.pfx, .jnum (-1))] = .ok (.datom .undef)) ∧
    DVal.datom .undef ≠ .datom .null ∧
    stringify stdW Config.default hUndef (.ref 0) =
      .ok (.jarr [.jobj [("u", .jobj [("#", .jnum (-1))])]],
           [.obj [("u", .atomv .undef), ("#id", .atomv .null)] objectProto]) ∧
    resurrect stdW Config.default (.jarr [.jobj [("u", .jobj [("#", .jnum (-1))])]]) =
      .ok ([.dobj [("u", .datom .undef)] objectProto], .dref 0) := by
  refine ⟨fun w cfg h => rfl, fun w cfg => ?_, fun w cfg len => ?_, by decide, rfl, rfl⟩
  · have hd : decodeEnc w cfg 0 [(cfg.pfx, .jnum (-1))] = .ok (.datom .undef) := by
      simp [decodeEnc, lookupF]
    unfold resurrect
    simp only [hd]
  · simp [decodeEnc, lookupF]

/-- C6: on a plain closed graph, a reachable function value makes `stringify`
fail with the library's function error — no output is produced and the value
is never silently coerced. -/
theorem C6_function_rejection {w : Window} {cfg : Config} {h : Heap} {v : HVal}
    (hU : UntaggedHeap cfg h) (hC : ClosedHeap h) (hP : PlainProtos h)
    (hreach : ReachesFn h v) :
    stringify w cfg h v = .error fnErr ∧
    fnErr.isLibraryError = true ∧
    ∀ p, stringify w cfg h v ≠ .ok p := by
  have hmain : stringify w cfg h v = .error fnErr := by
    cases v with
    | atomv a =>
        cases hreach
        rfl
    | ref n =>
        have hbound : n < h.length := by
          cases hreach with
          | arrElem hn hv2 hfn => exact (List.getElem?_eq_some_iff.mp hn).1
          | objField hn hv2 hfn => exact (List.getElem?_eq_some_iff.mp hn).1
        rcases stringify_classify w cfg ⟨hC, hP⟩ hbound with ⟨⟨wire, h2⟩, hp⟩ | herr
        · exfalso
          obtain ⟨st, -, -, -, hti, hslots, hroot, -⟩ := stringify_sound w cfg hU hp
          exact reachesFn_not_encRel w cfg hti hslots (.ref n) hreach
            (.eref (.num (.fin 0))) ⟨0, hroot, le_refl 0, rfl⟩
        · exact herr
  exact ⟨hmain, rfl, fun p hp => by rw [hmain] at hp; cases hp⟩

theorem C6_witness :
    ReachesFn hFn (.ref 0) ∧
    (stringify stdW Config.default hFn (.ref 0) = .error fnErr ∧
     fnErr.isLibraryError = true ∧
     ∀ p, stringify stdW Config.default hFn (.ref 0) ≠ .ok p) :=
  ⟨(ReachesFn.objField rfl (List.mem_cons_self _ _) ReachesFn.fn : ReachesFn hFn (.ref 0)),
   C6_function_rejection (untaggedHeap_of_b (by decide)) (closedHeap_of_b (by decide))
     (plainProtos_of_b (by decide))
     (ReachesFn.objField rfl (List.mem_cons_self _ _) ReachesFn.fn : ReachesFn hFn (.ref 0))⟩

/-- C7: when `stringify` succeeds, every original node is returned to the
caller with exactly its own fields: the identity tag is gone under plain
enumeration in cleanup mode and reset to `null` in the default mode, and no
other bookkeeping property (original backpointer or type tag) remains. -/
theorem C7_no_observable_mutation {w : Window} {cfg : Config} {h : Heap} {r : Nat}
    {wire : JVal} {h2 : Heap}
    (hU : UntaggedHeap cfg h)
    (hs : stringify w cfg h (.ref r) = .ok (wire, h2)) :
    h2.length = h.length ∧
    ∀ (n : Nat) (o : HObj), h[n]? = some o → ∃ o2, h2[n]? = some o2 ∧
      o2.delTag cfg = o ∧
      (cfg.cleanup = true → o2.getTag cfg = none) ∧
      (cfg.cleanup = false →
        o2.getTag cfg = none ∨ o2.getTag cfg = some (.atomv .null)) := by
  obtain ⟨hlen, hrest⟩ := stringify_heap_after w cfg hU hs
  refine ⟨hlen, fun n o ho => ?_⟩
  obtain ⟨o2, h1e, h2e, h3e, h4e⟩ := hrest n o ho
  exact ⟨o2, h1e, h2e, h4e, fun hcl => h3e.imp (fun x => x) (fun x => x.2)⟩

theorem C7_witness :
    UntaggedHeap Config.default hSelf ∧
    ((List.length [HObj.obj [("self", .ref 0), ("#id", .atomv .null)] objectProto]
        = hSelf.length) ∧
     ∀ (n : Nat) (o : HObj), hSelf[n]? = some o →
       ∃ o2, [HObj.obj [("self", .ref 0), ("#id", .atomv .null)] objectProto][n]?
           = some o2 ∧
         o2.delTag Config.default = o ∧
         (Config.default.cleanup = true → o2.getTag Config.default = none) ∧
         (Config.default.cleanup = false →
           o2.getTag Config.default = none ∨
           o2.getTag Config.default = some (.atomv .null))) :=
  ⟨untaggedHeap_of_b (by decide),
   C7_no_observable_mutation (untaggedHeap_of_b (by decide))
     (rfl : stringify stdW Config.default hSelf (.ref 0) =
        .ok (.jarr [.jobj [("self", .jobj [("#", .jnum 0)])]],
             [.obj [("self", .ref 0), ("#id", .atomv .null)] objectProto]))⟩

/-- C8 (amended): a builder encoding whose name is not bound in the global
namespace makes `resurrect` fail — but with an uncontrolled native
`TypeError` from `new undefined(...)`, not with a controlled error of the
library's own error type as the original claim states. -/
theorem C8_unknown_builder_native_error {w : Window} {cfg : Config}
    {name : String} {v : JVal}
    (hname : windowLookup w name = none) :
    resurrect w cfg (.jobj [(cfg.buildcode, .jstr name), (cfg.valuecode, v)]) =
      .error .nativeTypeErr ∧
    Err.isLibraryError .nativeTypeErr = false := by
  refine ⟨?_, rfl⟩
  have h1 : lookupF [(cfg.buildcode, JVal.jstr name), (cfg.valuecode, v)] cfg.pfx
      = none := by
    rw [lookupF_cons, if_neg (Ne.symm (pfx_ne_buildcode cfg)), lookupF_cons,
        if_neg (Ne.symm (pfx_ne_valuecode cfg)), lookupF_nil]
  have h2 : lookupF [(cfg.buildcode, JVal.jstr name), (cfg.valuecode, v)] cfg.buildcode
      = some (.jstr name) := by
    rw [lookupF_cons, if_pos rfl]
  unfold resurrect decodeEnc build
  simp only [h1, h2, hname]

theorem C8_witness :
    windowLookup stdW "Widget" = none ∧
    (resurrect stdW Config.default
        (JVal.jobj [(Config.default.buildcode, JVal.jstr "Widget"),
                    (Config.default.valuecode, JVal.jstr "x")]) = .error .nativeTypeErr ∧
     Err.isLibraryError .nativeTypeErr = false) :=
  ⟨rfl, C8_unknown_builder_native_error
    (rfl : windowLookup stdW "Widget" = none)⟩

/-- C8 counterexample: decoding `{"#.": "Widget", "#v": "x"}` with `Widget`
unbound crashes with the native `TypeError`, which is not an instance of the
library's error type — the original claim promises a controlled
`UnknownBuilder` library error. -/
theorem C8_counterexample :
    resurrect stdW Config.default (.jobj [("#.", .jstr "Widget"), ("#v", .jstr "x")]) =
      .error .nativeTypeErr ∧
    Err.isLibraryError .nativeTypeErr = false ∧
    windowLookup stdW "Widget" = none :=
  ⟨rfl, rfl, rfl⟩

/-- C9 (amended): for a composite whose prototype carries a non-empty
constructor name other than the default `Object`, a name that resolves to a
different prototype aborts the encoding with the constructor-mismatch error,
and a name that resolves back to the same prototype tags the copy with that
name.  (The original claim omitted the `Object` exemption: a non-default
prototype named `Object` skips the check entirely.) -/
theorem C9_constructor_mismatch {w : Window} {cfg : Config} {h : Heap} {r : Nat}
    {fields : List (String × HVal)} {proto : Proto} {entry : WindowEntry}
    (hrev : cfg.revive = true)
    (hU : UntaggedHeap cfg h)
    (hr : h[r]? = some (.obj fields proto))
    (hn1 : proto.ctorName ≠ "") (hn2 : proto.ctorName ≠ "Object")
    (hlook : windowLookup w proto.ctorName = some entry) :
    (entry.protoOf ≠ proto →
       stringify w cfg h (.ref r) = .error (.resurrectErr "Constructor mismatch!")) ∧
    (entry.protoOf = proto →
       tagCheck w cfg false proto = .ok (some proto.ctorName)) := by
  have htceq : tagCheck w cfg false proto =
      if entry.protoOf = proto then .ok (some proto.ctorName)
      else .error (.resurrectErr "Constructor mismatch!") := by
    unfold tagCheck
    rw [if_pos hrev, if_neg Bool.false_ne_true, if_neg hn1, if_neg hn2]
    simp only [hlook]
  constructor
  · intro hne
    have htc2 : tagCheck w cfg false proto =
        .error (.resurrectErr "Constructor mismatch!") := by
      rw [htceq, if_neg hne]
    have hu : HObj.isTagged cfg (.obj fields proto) = false :=
      isTagged_of_getTag_none cfg (hU _ (List.getElem?_mem hr))
    have hv : visit w cfg (countUntagged cfg h + 1) (⟨h, []⟩ : EncSt) (.ref r) =
        .error (.resurrectErr "Constructor mismatch!") := by
      rw [visit_succ_ref]
      exact visitStep_obj_tagCheck_err w cfg _ _ _ hr hu htc2
    unfold stringify
    simp only [hv]
  · intro he
    rw [htceq, if_pos he]

theorem C9_witness :
    windowLookup stdW "Foo" = some (.protoCtor fooProto) ∧
    WindowEntry.protoOf (.protoCtor fooProto) ≠ badProto ∧
    stringify stdW Config.default [.obj [] badProto] (.ref 0) =
      .error (.resurrectErr "Constructor mismatch!") ∧
    tagCheck stdW Config.default false fooProto = .ok (some "Foo") :=
  ⟨rfl, by decide,
   (C9_constructor_mismatch rfl (untaggedHeap_of_b (by decide))
      (rfl : [HObj.obj [] badProto][0]? = some (.obj [] badProto))
      (by decide) (by decide)
      (rfl : windowLookup stdW badProto.ctorName = some (.protoCtor fooProto))).1
     (by decide),
   (C9_constructor_mismatch rfl (untaggedHeap_of_b (by decide))
      (rfl : hFoo[0]? = some (.obj [("bar", .atomv (.bool true))] fooProto))
      (by decide) (by decide)
      (rfl : windowLookup stdW fooProto.ctorName = some (.protoCtor fooProto))).2 rfl⟩

/-- C9 counterexample: a non-default prototype whose constructor name is
`Object` bypasses the mismatch check: the global `Object` resolves to a
different prototype, yet encoding succeeds untagged instead of failing with
the mismatch error. -/
theorem C9_counterexample :
    stringify stdW Config.default [.obj [] objNamedProto] (.ref 0) =
      .ok (.jarr [.jobj []], [.obj [("#id", .atomv .null)] objNamedProto]) ∧
    windowLookup stdW "Object" = some (.protoCtor objectProto) ∧
    WindowEntry.protoOf (.protoCtor objectProto) ≠ objNamedProto ∧
    objNamedProto.ctorName = "Object" :=
  ⟨rfl, rfl, by decide, rfl⟩

/-- C10: a serialized object slot carries exactly the original node's own
fields (plus, when tagged and not cleaning up, the leading type-tag marker):
the decoded slot's own keys are the source's own keys, and prototype-chain
properties travel only through the reattached prototype component. -/
theorem C10_own_fields_only {w : Window} {cfg : Config} {h : Heap} {r : Nat}
    {wire : JVal} {h2 : Heap}
    (hU : UntaggedHeap cfg h) (hCK : CleanKeys cfg h)
    (hDate : windowLookup w "Date" = some .dateCtor)
    (hs : stringify w cfg h (.ref r) = .ok (wire, h2)) :
    ∃ (h1 : Heap) (tbl : List Copy) (ds : List DObj),
      resurrect w cfg wire = .ok (ds, .dref 0) ∧
      List.Forall₂ (copyDec w cfg h h1) tbl ds ∧
      ∀ (i : Nat) (c : Copy) (d : DObj), tbl[i]? = some c → ds[i]? = some d →
        ∀ fields proto, h[c.orig]? = some (.obj fields proto) →
          ∃ dfs, d = .dobj ((match c.tag with
                    | some name => if cfg.cleanup then []
                                   else [(cfg.pfx, DVal.datom (.str name))]
                    | none => []) ++ dfs)
                  (match c.tag with | some _ => proto | none => objectProto) ∧
            dfs.map Prod.fst = fields.map Prod.fst := by
  obtain ⟨h1, tbl, ds, hres, hdsr, -, -, -, -⟩ :=
    resurrect_of_stringify w cfg hU hCK hDate hs
  refine ⟨h1, tbl, ds, hres, hdsr, ?_⟩
  intro i c d hc hd fields proto hof
  obtain ⟨d2, hd2, hcd⟩ := forall₂_getElem?_left hdsr i c hc
  rw [hd2] at hd
  injection hd with hdd
  subst hdd
  rcases hcd with ⟨e2, p2, dls, hoo, heq, -⟩ | ⟨f2, p2, dfs, hoo, heq, hrel2⟩
  · rw [hof] at hoo
    exact absurd hoo (by simp)
  · rw [hof] at hoo
    injection hoo with hoe
    injection hoe with he1 he2
    subst he1
    subst he2
    exact ⟨dfs, heq, forall₂_keys_eq hrel2⟩

theorem C10_witness :
    CleanKeys Config.default hFoo ∧
    (∃ (h1 : Heap) (tbl : List Copy) (ds : List DObj),
      resurrect stdW Config.default
          (.jarr [.jobj [("#", .jstr "Foo"), ("bar", .jbool true)]]) =
        .ok (ds, .dref 0) ∧
      List.Forall₂ (copyDec stdW Config.default hFoo h1) tbl ds ∧
      ∀ (i : Nat) (c : Copy) (d : DObj), tbl[i]? = some c → ds[i]? = some d →
        ∀ fields proto, hFoo[c.orig]? = some (.obj fields proto) →
          ∃ dfs, d = .dobj ((match c.tag with
                    | some name => if Config.default.cleanup then []
                                   else [(Config.default.pfx, DVal.datom (.str name))]
                    | none => []) ++ dfs)
                  (match c.tag with | some _ => proto | none => objectProto) ∧
            dfs.map Prod.fst = fields.map Prod.fst) :=
  ⟨cleanKeys_of_b (by decide),
   C10_own_fields_only (untaggedHeap_of_b (by decide)) (cleanKeys_of_b (by decide))
     rfl
     (rfl : stringify stdW Config.default hFoo (.ref 0) =
        .ok (.jarr [.jobj [("#", .jstr "Foo"), ("bar", .jbool true)]],
             [.obj [("bar", .atomv (.bool true)), ("#id", .atomv .null)] fooProto]))⟩

end RJS
